import Mathlib

/-!
Verification of the `lunes` localized-time translation library.

Go strings are modelled as lists of byte values (`Str := List Nat`, every
element < 256).  All cursor arithmetic in the source (`lunes.go`) is in
bytes, so the embedding indexes byte lists exactly as the Go code indexes
strings.  Fallible Go functions returning `(..., error)` become `Except`;
the out-of-range slice-index panic reachable in `lookup` is modelled by
`Option` (`none` = runtime panic).
-/

namespace Lunes

/-- Go strings as byte lists. -/
abbrev Str := List Nat

/-- Bytes of an ASCII string literal (code points = bytes for ASCII). -/
def ascii (s : String) : Str := s.data.map Char.toNat

/-- Go slice expression `s[a:b]`. -/
def goSlice (s : Str) (a b : Nat) : Str := (s.drop a).take (b - a)

/-- `longDayNamesStd` table from lunes.go. -/
def longDayNamesStd : List Str :=
  [ascii "Sunday", ascii "Monday", ascii "Tuesday", ascii "Wednesday",
   ascii "Thursday", ascii "Friday", ascii "Saturday"]

/-- `shortDayNamesStd` table from lunes.go. -/
def shortDayNamesStd : List Str :=
  [ascii "Sun", ascii "Mon", ascii "Tue", ascii "Wed",
   ascii "Thu", ascii "Fri", ascii "Sat"]

/-- `shortMonthNamesStd` table from lunes.go. -/
def shortMonthNamesStd : List Str :=
  [ascii "Jan", ascii "Feb", ascii "Mar", ascii "Apr", ascii "May", ascii "Jun",
   ascii "Jul", ascii "Aug", ascii "Sep", ascii "Oct", ascii "Nov", ascii "Dec"]

/-- `longMonthNamesStd` table from lunes.go. -/
def longMonthNamesStd : List Str :=
  [ascii "January", ascii "February", ascii "March", ascii "April",
   ascii "May", ascii "June", ascii "July", ascii "August",
   ascii "September", ascii "October", ascii "November", ascii "December"]

/-- `dayPeriodsStd` table from lunes.go. -/
def dayPeriodsStd : List Str := [ascii "AM", ascii "PM"]

/-- Go `unicode.IsSpace(rune(b))` for a single byte `b` (the code converts one
byte to a rune, so only the Latin-1 range matters): tab, LF, VT, FF, CR,
space, NEL (U+0085) and NBSP (U+00A0). -/
def isSpaceByte (b : Nat) : Bool :=
  b = 9 || b = 10 || b = 11 || b = 12 || b = 13 || b = 32 || b = 133 || b = 160

/-- Go `unicode.ToUpper(rune(b))` for a single byte `b` (Latin-1 range):
`a`-`z` and the Latin-1 lowercase letters map up; `µ` maps to `Μ` (U+039C),
`ÿ` to `Ÿ` (U+0178); `ß` and everything else is fixed. -/
def goToUpperByte (b : Nat) : Nat :=
  if 97 ≤ b ∧ b ≤ 122 then b - 32
  else if b = 181 then 924
  else if b = 255 then 376
  else if 224 ≤ b ∧ b ≤ 254 ∧ b ≠ 247 then b - 32
  else b

/-- Go `utf8.AppendRune`/`WriteRune` applied to `rune(b)` for a byte `b`:
bytes < 0x80 encode as themselves, bytes 0x80–0xFF as the two-byte UTF-8
encoding of that code point.  This models `sb.WriteRune(rune(value[valueOffset]))`
in `Translate`. -/
def utf8EncodeByteRune (b : Nat) : Str :=
  if b < 128 then [b] else [192 + b / 64, 128 + b % 64]

/-- Is `x` a UTF-8 continuation byte (0x80–0xBF)? -/
def contByte (x : Nat) : Bool := 128 ≤ x && x ≤ 191

/-- Go `utf8.DecodeRuneInString`: decode the first rune of a byte string,
returning the rune and the remaining bytes.  Invalid or truncated sequences
decode as U+FFFD consuming one byte, exactly as in Go.  `none` only for the
empty string. -/
def utf8DecodeNext : Str → Option (Nat × Str)
  | [] => none
  | b :: rest =>
    if b < 128 then some (b, rest)
    else if 194 ≤ b ∧ b ≤ 223 then
      match rest with
      | b2 :: rest2 =>
        if contByte b2 then some ((b - 192) * 64 + (b2 - 128), rest2)
        else some (65533, rest)
      | [] => some (65533, rest)
    else if 224 ≤ b ∧ b ≤ 239 then
      match rest with
      | b2 :: b3 :: rest3 =>
        if (if b = 224 then 160 ≤ b2 ∧ b2 ≤ 191
            else if b = 237 then 128 ≤ b2 ∧ b2 ≤ 159
            else contByte b2 = true) ∧ contByte b3 = true then
          some ((b - 224) * 4096 + (b2 - 128) * 64 + (b3 - 128), rest3)
        else some (65533, rest)
      | _ => some (65533, rest)
    else if 240 ≤ b ∧ b ≤ 244 then
      match rest with
      | b2 :: b3 :: b4 :: rest4 =>
        if (if b = 240 then 144 ≤ b2 ∧ b2 ≤ 191
            else if b = 244 then 128 ≤ b2 ∧ b2 ≤ 143
            else contByte b2 = true) ∧ contByte b3 = true ∧ contByte b4 = true then
          some ((b - 240) * 262144 + (b2 - 128) * 4096 + (b3 - 128) * 64 + (b4 - 128), rest4)
        else some (65533, rest)
      | _ => some (65533, rest)
    else some (65533, rest)

theorem utf8DecodeNext_length {s s' : Str} {r : Nat}
    (h : utf8DecodeNext s = some (r, s')) : s'.length < s.length := by
  match s with
  | [] => simp [utf8DecodeNext] at h
  | b :: rest =>
    simp only [utf8DecodeNext] at h
    repeat' split at h
    all_goals simp_all
    all_goals omega

/-- Go `unicode.SimpleFold`, restricted to the ASCII and Latin-1 simple case
pairs (`A`–`Z`/`a`–`z`, `À`–`Þ`/`à`–`þ` except `×`/`÷`, `ÿ`/`Ÿ`); identity on
all other code points.  Go's full fold table additionally has orbits
escaping this range (µ→Μ, Μ↔μ, ß↔ẞ, å→Å ANGSTROM SIGN, k→K KELVIN SIGN,
s→ſ, and the non-Latin scripts): on runes outside the modelled range this
fold under-approximates `strings.EqualFold`, which is why the longest-match
characterization of claim C2 is proved parametrically in the match
predicate, and why the value-variation relation of claim C7 is scoped to
ASCII and Latin-1 letter case. -/
def simpleFold (r : Nat) : Nat :=
  if 65 ≤ r ∧ r ≤ 90 then r + 32
  else if 97 ≤ r ∧ r ≤ 122 then r - 32
  else if 192 ≤ r ∧ r ≤ 222 ∧ r ≠ 215 then r + 32
  else if 224 ≤ r ∧ r ≤ 254 ∧ r ≠ 247 then r - 32
  else if r = 255 then 376
  else if r = 376 then 255
  else r

/-- The general-case rune comparison of Go `strings.EqualFold` (`sr < tr`,
`tr ≥ 0x80`): walk the fold orbit of `sr` (Go local `r`) while below `tr` and
test for `tr`.  Since `simpleFold` is an involution the orbit walk is two
steps at most, written out inline. -/
def foldGeneral (sr tr : Nat) : Bool :=
  decide ((if simpleFold sr ≠ sr ∧ simpleFold sr < tr
    then simpleFold (simpleFold sr) else simpleFold sr) = tr)

/-- One rune comparison step of Go `strings.EqualFold`: equal runes match;
otherwise order the pair into (small, large) — the Go locals `sr`, `tr`
after the conditional swap, written out inline — handle an ASCII upper/lower
pair, or fall to the general fold walk. -/
def runesFoldEq (sr tr : Nat) : Bool :=
  if sr = tr then true
  else
    if (if tr < sr then sr else tr) < 128 then
      decide (65 ≤ (if tr < sr then tr else sr) ∧ (if tr < sr then tr else sr) ≤ 90 ∧
        (if tr < sr then sr else tr) = (if tr < sr then tr else sr) + 32)
    else foldGeneral (if tr < sr then tr else sr) (if tr < sr then sr else tr)

/-- The rune loop of Go `strings.EqualFold`, with a structural fuel bound on
the number of iterations (each iteration consumes at least one byte of `s`,
so any `fuel ≥ s.length` is sufficient; see `equalFoldAux_fuel`). -/
def equalFoldAux : Nat → Str → Str → Bool
  | 0, s, t => (utf8DecodeNext s).isNone && (utf8DecodeNext t).isNone
  | fuel + 1, s, t =>
    match utf8DecodeNext s, utf8DecodeNext t with
    | none, none => true
    | none, some _ => false
    | some _, none => false
    | some (sr, s'), some (tr, t') =>
      if runesFoldEq sr tr then equalFoldAux fuel s' t' else false

/-- Go `strings.EqualFold` on byte strings: decode runes from both sides and
compare under simple case folding; strings of different rune counts differ. -/
def equalFold (s t : Str) : Bool := equalFoldAux s.length s t

theorem utf8DecodeNext_nil : utf8DecodeNext [] = none := rfl

theorem utf8DecodeNext_nil_iff {s : Str} : utf8DecodeNext s = none ↔ s = [] := by
  constructor
  · intro h
    match s with
    | [] => rfl
    | b :: rest =>
      unfold utf8DecodeNext at h
      repeat' split at h
      all_goals simp_all
  · intro h
    subst h
    rfl

theorem equalFoldAux_fuel {s t : Str} :
    ∀ fuel, s.length ≤ fuel → equalFoldAux fuel s t = equalFold s t := by
  suffices H : ∀ fuel₁ fuel₂ (s t : Str), s.length ≤ fuel₁ → s.length ≤ fuel₂ →
      equalFoldAux fuel₁ s t = equalFoldAux fuel₂ s t by
    intro fuel hf
    exact H fuel s.length s t hf (Nat.le_refl _)
  intro fuel₁
  induction fuel₁ using Nat.strong_induction_on with
  | _ fuel₁ ih =>
    intro fuel₂ s t h1 h2
    match fuel₁, fuel₂ with
    | 0, 0 => rfl
    | 0, f2 + 1 =>
      have hs : s = [] := List.length_eq_zero.mp (by omega)
      subst hs
      cases ht : utf8DecodeNext t <;> simp [equalFoldAux, utf8DecodeNext_nil, ht]
    | f1 + 1, 0 =>
      have hs : s = [] := List.length_eq_zero.mp (by omega)
      subst hs
      cases ht : utf8DecodeNext t <;> simp [equalFoldAux, utf8DecodeNext_nil, ht]
    | f1 + 1, f2 + 1 =>
      show equalFoldAux (f1 + 1) s t = equalFoldAux (f2 + 1) s t
      unfold equalFoldAux
      cases hs : utf8DecodeNext s with
      | none => cases ht : utf8DecodeNext t <;> simp
      | some p =>
        obtain ⟨sr, s'⟩ := p
        have hlt : s'.length < s.length := utf8DecodeNext_length hs
        cases ht : utf8DecodeNext t with
        | none => simp
        | some q =>
          obtain ⟨tr, t'⟩ := q
          simp only
          split
          · exact ih f1 (by omega) f2 s' t' (by omega) (by omega)
          · rfl

/-- The loop equation of `equalFold`. -/
theorem equalFold_eq (s t : Str) :
    equalFold s t =
      match utf8DecodeNext s, utf8DecodeNext t with
      | none, none => true
      | none, some _ => false
      | some _, none => false
      | some (sr, s'), some (tr, t') =>
        if runesFoldEq sr tr then equalFold s' t' else false := by
  show equalFoldAux s.length s t = _
  cases hs : utf8DecodeNext s with
  | none =>
    have : s = [] := utf8DecodeNext_nil_iff.mp hs
    subst this
    cases ht : utf8DecodeNext t <;> simp [equalFoldAux, utf8DecodeNext_nil, ht]
  | some p =>
    obtain ⟨sr, s'⟩ := p
    have hpos : 0 < s.length := by
      rcases s with _ | ⟨b, rest⟩
      · simp [utf8DecodeNext] at hs
      · simp
    obtain ⟨m, hm⟩ : ∃ m, s.length = m + 1 := ⟨s.length - 1, by omega⟩
    rw [hm]
    unfold equalFoldAux
    rw [hs]
    have hlt : s'.length < s.length := utf8DecodeNext_length hs
    cases ht : utf8DecodeNext t with
    | none => simp
    | some q =>
      obtain ⟨tr, t'⟩ := q
      simp only
      split
      · exact equalFoldAux_fuel (s := s') (t := t') m (by omega)
      · rfl

/-- The whitespace-skip loop shared by `nextNonSpaceValue` and `lookup`,
with a structural fuel bound (the loop runs while `offset < len(value)`, so
any `fuel ≥ value.length - offset` is sufficient; see `skipSpacesAux_fuel`):
`for newOffset < len(value) && unicode.IsSpace(rune(value[newOffset])) { newOffset++ }`. -/
def skipSpacesAux : Nat → Str → Nat → Nat
  | 0, _, offset => offset
  | fuel + 1, value, offset =>
    if offset < value.length ∧ isSpaceByte (value.getD offset 0) then
      skipSpacesAux fuel value (offset + 1)
    else offset

/-- The whitespace-skip loop, at its sufficient fuel. -/
def skipSpaces (value : Str) (offset : Nat) : Nat :=
  skipSpacesAux (value.length - offset) value offset

theorem skipSpacesAux_fuel {value : Str} :
    ∀ fuel offset, value.length - offset ≤ fuel →
      skipSpacesAux fuel value offset = skipSpaces value offset := by
  suffices H : ∀ fuel₁ fuel₂ offset, value.length - offset ≤ fuel₁ →
      value.length - offset ≤ fuel₂ →
      skipSpacesAux fuel₁ value offset = skipSpacesAux fuel₂ value offset by
    intro fuel offset hf
    exact H fuel (value.length - offset) offset hf (Nat.le_refl _)
  intro fuel₁
  induction fuel₁ with
  | zero =>
    intro fuel₂ offset h1 h2
    match fuel₂ with
    | 0 => rfl
    | f2 + 1 =>
      show skipSpacesAux 0 value offset = skipSpacesAux (f2 + 1) value offset
      unfold skipSpacesAux
      rw [if_neg (by omega)]
  | succ f1 ih =>
    intro fuel₂ offset h1 h2
    match fuel₂ with
    | 0 =>
      show skipSpacesAux (f1 + 1) value offset = skipSpacesAux 0 value offset
      unfold skipSpacesAux
      rw [if_neg (by omega)]
    | f2 + 1 =>
      show skipSpacesAux (f1 + 1) value offset = skipSpacesAux (f2 + 1) value offset
      unfold skipSpacesAux
      split
      · exact ih f2 (offset + 1) (by omega) (by omega)
      · rfl

/-- The loop equation of `skipSpaces`. -/
theorem skipSpaces_eq (value : Str) (offset : Nat) :
    skipSpaces value offset =
      if offset < value.length ∧ isSpaceByte (value.getD offset 0) then
        skipSpaces value (offset + 1)
      else offset := by
  unfold skipSpaces
  rcases h : value.length - offset with _ | m
  · rw [skipSpacesAux]
    rw [if_neg (by omega)]
  · rw [skipSpacesAux]
    split
    · exact skipSpacesAux_fuel m (offset + 1) (by omega)
    · rfl

/-- The copy loop of `nextNonSpaceValue`, with a structural fuel bound (the
loop runs while `off < len(value)`, so any `fuel ≥ value.length - off` is
sufficient; see `takeNonSpaceAux_fuel`).  Each iteration consumes one value
byte: Go `val += string(value[newOffset])` converts the byte to a rune and
appends its UTF-8 encoding (two bytes for a byte ≥ 0x80), and the stop test
`len(val) == max` counts the accumulated output bytes — an equality test, so
a two-byte append can step over `max` and the loop then runs to the next
whitespace or the end of the value. -/
def takeNonSpaceAux : Nat → Str → Nat → Nat → Str → Nat × Str
  | 0, _, _, off, acc => (off, acc)
  | fuel + 1, value, max, off, acc =>
    if off < value.length then
      if isSpaceByte (value.getD off 0) then (off, acc)
      else
        if (acc ++ utf8EncodeByteRune (value.getD off 0)).length = max then
          (off + 1, acc ++ utf8EncodeByteRune (value.getD off 0))
        else takeNonSpaceAux fuel value max (off + 1) (acc ++ utf8EncodeByteRune (value.getD off 0))
    else (off, acc)

/-- The copy loop of `nextNonSpaceValue`, at its sufficient fuel. -/
def takeNonSpaceLoop (value : Str) (max : Nat) (off : Nat) (acc : Str) : Nat × Str :=
  takeNonSpaceAux (value.length - off) value max off acc

theorem takeNonSpaceAux_fuel {value : Str} {max : Nat} :
    ∀ fuel off acc, value.length - off ≤ fuel →
      takeNonSpaceAux fuel value max off acc = takeNonSpaceLoop value max off acc := by
  suffices H : ∀ fuel₁ fuel₂ off acc, value.length - off ≤ fuel₁ →
      value.length - off ≤ fuel₂ →
      takeNonSpaceAux fuel₁ value max off acc = takeNonSpaceAux fuel₂ value max off acc by
    intro fuel off acc hf
    exact H fuel (value.length - off) off acc hf (Nat.le_refl _)
  intro fuel₁
  induction fuel₁ with
  | zero =>
    intro fuel₂ off acc h1 h2
    match fuel₂ with
    | 0 => rfl
    | f2 + 1 =>
      show takeNonSpaceAux 0 value max off acc = takeNonSpaceAux (f2 + 1) value max off acc
      unfold takeNonSpaceAux
      rw [if_neg (by omega)]
  | succ f1 ih =>
    intro fuel₂ off acc h1 h2
    match fuel₂ with
    | 0 =>
      show takeNonSpaceAux (f1 + 1) value max off acc = takeNonSpaceAux 0 value max off acc
      unfold takeNonSpaceAux
      rw [if_neg (by omega)]
    | f2 + 1 =>
      show takeNonSpaceAux (f1 + 1) value max off acc = takeNonSpaceAux (f2 + 1) value max off acc
      unfold takeNonSpaceAux
      split
      · split
        · rfl
        · split
          · rfl
          · exact ih f2 (off + 1) _ (by omega) (by omega)
      · rfl

/-- The loop equation of `takeNonSpaceLoop`. -/
theorem takeNonSpaceLoop_eq (value : Str) (max off : Nat) (acc : Str) :
    takeNonSpaceLoop value max off acc =
      if off < value.length then
        if isSpaceByte (value.getD off 0) then (off, acc)
        else
          if (acc ++ utf8EncodeByteRune (value.getD off 0)).length = max then
            (off + 1, acc ++ utf8EncodeByteRune (value.getD off 0))
          else takeNonSpaceLoop value max (off + 1) (acc ++ utf8EncodeByteRune (value.getD off 0))
      else (off, acc) := by
  unfold takeNonSpaceLoop
  rcases h : value.length - off with _ | m
  · rw [takeNonSpaceAux]
    rw [if_neg (by omega)]
  · rw [takeNonSpaceAux]
    split
    · split
      · rfl
      · split
        · rfl
        · exact takeNonSpaceAux_fuel m (off + 1) _ (by omega)
    · rfl

/-- Errors of the translation, from lunes.go: `ErrLayoutMismatch`,
`ErrUnsupportedLayoutElem`, and the `errors.New` value of `nextNonSpaceValue`. -/
inductive TransError where
  | layoutMismatch (layoutElem value : Str)
  | unsupportedLayoutElem (layoutElem language : Str)
  | nextNonSpaceNotFound
deriving DecidableEq, Repr

/-- `nextNonSpaceValue(value, offset, max)` from lunes.go: skip whitespace,
fail if the skip ran past the end (offset beyond the value), else run the
copy loop (`takeNonSpaceLoop`), which emits each consumed non-space byte as
the UTF-8 encoding of its code point and stops when the accumulated output
is exactly `max` bytes, at the next whitespace, or at the end of the value.
Returns (newOffset, skippedSpaces, val). -/
def nextNonSpaceValue (value : Str) (offset max : Nat) :
    Except TransError (Nat × Nat × Str) :=
  let newOffset := skipSpaces value offset
  let skipped := newOffset - offset
  if newOffset > value.length then .error .nextNonSpaceNotFound
  else
    let r := takeNonSpaceLoop value max newOffset []
    .ok (r.1, skipped, r.2)

/-- `writeNextNonSpaceValue` from lunes.go: run `nextNonSpaceValue` and emit
one ASCII space per skipped whitespace byte followed by the copied bytes.
Returns the new value offset and the bytes written to the builder. -/
def writeNextNonSpaceValue (value : Str) (offset max : Nat) :
    Except TransError (Nat × Str) :=
  match nextNonSpaceValue value offset max with
  | .error e => .error e
  | .ok (newOff, skipped, v) => .ok (newOff, List.replicate skipped 32 ++ v)

/-- The candidate-table loop of `lookup` from lunes.go, with running index
`i`, current best `(stdValue, value)`; the Go local `candidate` (the value
slice of the entry's length) is written out inline.  `none` models the Go
panic when a match at index `i` indexes `stdTab` out of range. -/
def lookupLoop (val : Str) (newOffset : Nat) (stdTab : List Str) :
    List Str → Nat → Str → Str → Option (Str × Str)
  | [], _, stdValue, value => some (stdValue, value)
  | v :: rest, i, stdValue, value =>
    if stdValue ≠ [] ∧ v.length ≤ value.length then
      lookupLoop val newOffset stdTab rest (i + 1) stdValue value
    else if newOffset + v.length > val.length then
      lookupLoop val newOffset stdTab rest (i + 1) stdValue value
    else
      if (goSlice val newOffset (newOffset + v.length)).length = v.length ∧
          equalFold (goSlice val newOffset (newOffset + v.length)) v then
        match stdTab.get? i with
        | none => none
        | some sv =>
          lookupLoop val newOffset stdTab rest (i + 1) sv
            (goSlice val newOffset (newOffset + v.length))
      else lookupLoop val newOffset stdTab rest (i + 1) stdValue value

/-- `lookup(lookupTab, offset, val, stdTab)` from lunes.go: skip leading
whitespace, then scan the candidate table keeping the longest
case-insensitive match.  Returns (newOffset, skippedSpaces, stdValue,
matchedValue); `none` models the out-of-range panic. -/
def lookup (lookupTab : List Str) (offset : Nat) (val : Str) (stdTab : List Str) :
    Option (Nat × Nat × Str × Str) :=
  let newOffset := skipSpaces val offset
  let skipped := newOffset - offset
  if newOffset > val.length then some (offset, skipped, [], val)
  else
    match lookupLoop val newOffset stdTab lookupTab 0 [] [] with
    | none => none
    | some (sv, v) => some (newOffset, skipped, sv, v)

/-- `writeLayoutValue` from lunes.go: run `lookup`; an empty canonical match
is a layout mismatch (the error carries the whole value string); otherwise
emit one space per skipped whitespace byte plus the canonical value, and
return the offset advanced past the matched local text. -/
def writeLayoutValue (layoutElem : Str) (lookupTab stdTab : List Str)
    (valueOffset : Nat) (value : Str) : Option (Except TransError (Nat × Str)) :=
  match lookup lookupTab valueOffset value stdTab with
  | none => none
  | some (newOffset, skipped, foundStdValue, v) =>
    if foundStdValue = [] then
      some (.error (.layoutMismatch layoutElem value))
    else
      some (.ok (newOffset + v.length, List.replicate skipped 32 ++ foundStdValue))

/-- `startsWithLowerCase` from lunes.go. -/
def startsWithLowerCase (value : Str) : Bool :=
  match value with
  | [] => false
  | c :: _ => 97 ≤ c && c ≤ 122

/-- The data view of the `Locale` interface from locale.go: a language tag
(in string form) and the five token tables. -/
structure Locale where
  language : Str
  longDayNames : List Str
  shortDayNames : List Str
  longMonthNames : List Str
  shortMonthNames : List Str
  dayPeriods : List Str
deriving DecidableEq, Repr

/-- Outcome of one iteration of the `Translate` scan loop: a Go panic, an
early `return "", err`, or the next cursor/builder state. -/
inductive StepOut where
  | panicked
  | failed (e : TransError)
  | next (layoutOffset valueOffset : Nat) (out : Str)
deriving DecidableEq, Repr

/-- Outcome of `Translate`: a Go panic, or the returned (string, error) pair. -/
inductive GoResult where
  | panicked
  | result (s : Str) (e : Option TransError)
deriving DecidableEq, Repr

/-- The `!written` fallthrough of the `Translate` loop: if value remains,
write `rune(value[valueOffset])` (re-encoded as UTF-8) and advance the value
cursor by the number of bytes written; always advance the layout cursor by 1. -/
def literalStep (value : Str) (lo vo : Nat) (out : Str) : StepOut :=
  if value.length > vo then
    let enc := utf8EncodeByteRune (value.getD vo 0)
    .next (lo + 1) (vo + enc.length) (out ++ enc)
  else .next (lo + 1) vo out

/-- The shared body of the recognized-token cases of `Translate`: empty
locale table fails with `ErrUnsupportedLayoutElem`; otherwise run
`writeLayoutValue` and advance the layout cursor by the element length. -/
def tokenAction (layoutElem : Str) (lookupTab stdTab : List Str) (language : Str)
    (lo vo : Nat) (out value : Str) : StepOut :=
  if lookupTab.length = 0 then
    .failed (.unsupportedLayoutElem layoutElem language)
  else
    match writeLayoutValue layoutElem lookupTab stdTab vo value with
    | none => .panicked
    | some (.error e) => .failed e
    | some (.ok (vo', w)) => .next (lo + layoutElem.length) vo' (out ++ w)

/-- `case 'J'` of the `Translate` switch: `January` / `Jan` recognition with
the lowercase guard after `Jan`; anything else falls to the literal step. -/
def stepJ (layout value : Str) (locale : Locale) (lo vo : Nat) (out : Str) : StepOut :=
  if lo + 3 ≤ layout.length ∧ goSlice layout lo (lo + 3) = ascii "Jan" then
    if lo + 7 ≤ layout.length ∧ goSlice layout lo (lo + 7) = ascii "January" then
      tokenAction (ascii "January") locale.longMonthNames longMonthNamesStd
        locale.language lo vo out value
    else if ¬ startsWithLowerCase (layout.drop (lo + 3)) then
      tokenAction (ascii "Jan") locale.shortMonthNames shortMonthNamesStd
        locale.language lo vo out value
    else literalStep value lo vo out
  else literalStep value lo vo out

/-- `case 'M'` of the `Translate` switch: `Monday` / `Mon` recognition. -/
def stepM (layout value : Str) (locale : Locale) (lo vo : Nat) (out : Str) : StepOut :=
  if lo + 3 ≤ layout.length ∧ goSlice layout lo (lo + 3) = ascii "Mon" then
    if lo + 6 ≤ layout.length ∧ goSlice layout lo (lo + 6) = ascii "Monday" then
      tokenAction (ascii "Monday") locale.longDayNames longDayNamesStd
        locale.language lo vo out value
    else if ¬ startsWithLowerCase (layout.drop (lo + 3)) then
      tokenAction (ascii "Mon") locale.shortDayNames shortDayNamesStd
        locale.language lo vo out value
    else literalStep value lo vo out
  else literalStep value lo vo out

/-- `case 'P', 'p'` of the `Translate` switch: a 2-byte day-period token when
the following byte uppercases to `M`. -/
def stepP (layout value : Str) (locale : Locale) (lo vo : Nat) (out : Str) : StepOut :=
  if lo + 2 ≤ layout.length ∧ goToUpperByte (layout.getD (lo + 1) 0) = 77 then
    tokenAction (ascii "PM") locale.dayPeriods dayPeriodsStd
      locale.language lo vo out value
  else literalStep value lo vo out

/-- The `layoutElemSize` computed by the first `if` of `case '_'`: 5 for
`_2006` with at least 5 value bytes left, 2 for `_2` with at least 2 left,
otherwise 0 (the token is skipped). -/
def underscoreSize (layout value : Str) (lo vo : Nat) : Nat :=
  if lo + 5 ≤ layout.length ∧ goSlice layout (lo + 1) (lo + 5) = ascii "2006" then
    if value.length ≥ vo + 5 then 5 else 0
  else
    if value.length ≥ vo + 2 then 2 else 0

/-- The first `if` of `case '_'`: `_2006` / `_2` handling.  `some` returns
the state after a successful write (or the propagated error); `none` means
the branch wrote nothing (`written` still false, state unchanged). -/
def underscoreFirst (layout value : Str) (lo vo : Nat) (out : Str) :
    Option (Except TransError (Nat × Nat × Str)) :=
  if lo + 2 ≤ layout.length ∧ layout.getD (lo + 1) 0 = 50 then
    if underscoreSize layout value lo vo > 0 then
      match writeNextNonSpaceValue value vo (underscoreSize layout value lo vo) with
      | .error e => some (.error e)
      | .ok (vo', w) => some (.ok (lo + underscoreSize layout value lo vo, vo', out ++ w))
    else none
  else none

/-- `case '_'` of the `Translate` switch.  The second `if` (`__2`) runs after
the first one and re-reads the layout at the (possibly advanced) offset,
exactly as in the Go source where both `if` statements execute in sequence. -/
def stepUnderscore (layout value : Str) (lo vo : Nat) (out : Str) : StepOut :=
  match underscoreFirst layout value lo vo out with
  | some (.error e) => .failed e
  | some (.ok (lo1, vo1, out1)) =>
    if lo1 + 3 ≤ layout.length ∧ layout.getD (lo1 + 1) 0 = 95 ∧
        layout.getD (lo1 + 2) 0 = 50 then
      if value.length ≥ vo1 + 3 then
        match writeNextNonSpaceValue value vo1 3 with
        | .error e => .failed e
        | .ok (vo2, w2) => .next (lo1 + 3) vo2 (out1 ++ w2)
      else .next lo1 vo1 out1
    else .next lo1 vo1 out1
  | none =>
    if lo + 3 ≤ layout.length ∧ layout.getD (lo + 1) 0 = 95 ∧
        layout.getD (lo + 2) 0 = 50 then
      if value.length ≥ vo + 3 then
        match writeNextNonSpaceValue value vo 3 with
        | .error e => .failed e
        | .ok (vo2, w2) => .next (lo + 3) vo2 (out ++ w2)
      else literalStep value lo vo out
    else literalStep value lo vo out

/-- One iteration of the `Translate` scan loop (the `switch` on
`layout[layoutOffset]` plus the `!written` fallthrough). -/
def translateStep (layout value : Str) (locale : Locale) (lo vo : Nat) (out : Str) :
    StepOut :=
  if layout.getD lo 0 = 74 then stepJ layout value locale lo vo out
  else if layout.getD lo 0 = 77 then stepM layout value locale lo vo out
  else if layout.getD lo 0 = 80 ∨ layout.getD lo 0 = 112 then
    stepP layout value locale lo vo out
  else if layout.getD lo 0 = 95 then stepUnderscore layout value lo vo out
  else literalStep value lo vo out

theorem literalStep_lt {value : Str} {lo vo : Nat} {out : Str} {lo' vo' : Nat} {out' : Str}
    (h : literalStep value lo vo out = .next lo' vo' out') : lo < lo' := by
  unfold literalStep at h
  split at h <;> (injection h with h1; omega)

theorem tokenAction_lt {layoutElem : Str} {lookupTab stdTab : List Str} {language : Str}
    {lo vo : Nat} {out value : Str} {lo' vo' : Nat} {out' : Str}
    (hne : 0 < layoutElem.length)
    (h : tokenAction layoutElem lookupTab stdTab language lo vo out value =
      .next lo' vo' out') : lo < lo' := by
  unfold tokenAction at h
  split at h
  · exact absurd h (by simp)
  · split at h <;> simp_all <;> omega

theorem stepJ_lt {layout value : Str} {locale : Locale} {lo vo : Nat} {out : Str}
    {lo' vo' : Nat} {out' : Str}
    (h : stepJ layout value locale lo vo out = .next lo' vo' out') : lo < lo' := by
  unfold stepJ at h
  split at h
  · split at h
    · exact tokenAction_lt (by decide) h
    · split at h
      · exact tokenAction_lt (by decide) h
      · exact literalStep_lt h
  · exact literalStep_lt h

theorem stepM_lt {layout value : Str} {locale : Locale} {lo vo : Nat} {out : Str}
    {lo' vo' : Nat} {out' : Str}
    (h : stepM layout value locale lo vo out = .next lo' vo' out') : lo < lo' := by
  unfold stepM at h
  split at h
  · split at h
    · exact tokenAction_lt (by decide) h
    · split at h
      · exact tokenAction_lt (by decide) h
      · exact literalStep_lt h
  · exact literalStep_lt h

theorem stepP_lt {layout value : Str} {locale : Locale} {lo vo : Nat} {out : Str}
    {lo' vo' : Nat} {out' : Str}
    (h : stepP layout value locale lo vo out = .next lo' vo' out') : lo < lo' := by
  unfold stepP at h
  split at h
  · exact tokenAction_lt (by decide) h
  · exact literalStep_lt h

theorem underscoreFirst_lt {layout value : Str} {lo vo : Nat} {out : Str}
    {lo1 vo1 : Nat} {out1 : Str}
    (h : underscoreFirst layout value lo vo out = some (.ok (lo1, vo1, out1))) :
    lo < lo1 := by
  unfold underscoreFirst at h
  split at h
  · split at h
    · split at h <;> simp_all <;> omega
    · simp_all
  · simp_all

theorem stepUnderscore_lt {layout value : Str} {lo vo : Nat} {out : Str}
    {lo' vo' : Nat} {out' : Str}
    (h : stepUnderscore layout value lo vo out = .next lo' vo' out') : lo < lo' := by
  unfold stepUnderscore at h
  split at h
  · simp_all
  · rename_i lo1 vo1 out1 heq
    have h1 : lo < lo1 := underscoreFirst_lt heq
    split at h
    · split at h
      · split at h <;> simp_all <;> omega
      · simp_all
    · simp_all
  · split at h
    · split at h
      · split at h <;> simp_all <;> omega
      · exact literalStep_lt h
    · exact literalStep_lt h

theorem translateStep_lt {layout value : Str} {locale : Locale} {lo vo : Nat} {out : Str}
    {lo' vo' : Nat} {out' : Str}
    (h : translateStep layout value locale lo vo out = .next lo' vo' out') : lo < lo' := by
  unfold translateStep at h
  split at h
  · exact stepJ_lt h
  · split at h
    · exact stepM_lt h
    · split at h
      · exact stepP_lt h
      · split at h
        · exact stepUnderscore_lt h
        · exact literalStep_lt h

/-- The scan loop of `Translate`, plus the final append of the remaining
value tail (`if len(value) >= valueOffset`), with a structural fuel bound on
the number of iterations (each continuing iteration strictly increases `lo`,
which stays below `layout.length`, so any `fuel ≥ layout.length - lo` is
sufficient; see `translateLoopAux_fuel`; the fuel-exhausted branch with
`lo < layout.length` is unreachable at sufficient fuel). -/
def translateLoopAux : Nat → Str → Str → Locale → Nat → Nat → Str → GoResult
  | 0, layout, value, _, lo, vo, out =>
    if lo < layout.length then .panicked
    else if value.length ≥ vo then .result (out ++ value.drop vo) none
    else .result out none
  | fuel + 1, layout, value, locale, lo, vo, out =>
    if lo < layout.length then
      match translateStep layout value locale lo vo out with
      | .panicked => .panicked
      | .failed e => .result [] (some e)
      | .next lo' vo' out' => translateLoopAux fuel layout value locale lo' vo' out'
    else if value.length ≥ vo then .result (out ++ value.drop vo) none
    else .result out none

/-- The scan loop of `Translate`, at its sufficient fuel. -/
def translateLoop (layout value : Str) (locale : Locale) (lo vo : Nat) (out : Str) :
    GoResult :=
  translateLoopAux (layout.length - lo) layout value locale lo vo out

theorem translateLoopAux_fuel {layout value : Str} {locale : Locale} :
    ∀ fuel lo vo out, layout.length - lo ≤ fuel →
      translateLoopAux fuel layout value locale lo vo out =
        translateLoop layout value locale lo vo out := by
  suffices H : ∀ fuel₁ fuel₂ lo vo out, layout.length - lo ≤ fuel₁ →
      layout.length - lo ≤ fuel₂ →
      translateLoopAux fuel₁ layout value locale lo vo out =
        translateLoopAux fuel₂ layout value locale lo vo out by
    intro fuel lo vo out hf
    exact H fuel (layout.length - lo) lo vo out hf (Nat.le_refl _)
  intro fuel₁
  induction fuel₁ using Nat.strong_induction_on with
  | _ fuel₁ ih =>
    intro fuel₂ lo vo out h1 h2
    match fuel₁, fuel₂ with
    | 0, 0 => rfl
    | 0, f2 + 1 =>
      show translateLoopAux 0 layout value locale lo vo out =
        translateLoopAux (f2 + 1) layout value locale lo vo out
      unfold translateLoopAux
      have hn : ¬ lo < layout.length := by omega
      rw [if_neg hn, if_neg hn]
    | f1 + 1, 0 =>
      show translateLoopAux (f1 + 1) layout value locale lo vo out =
        translateLoopAux 0 layout value locale lo vo out
      unfold translateLoopAux
      have hn : ¬ lo < layout.length := by omega
      rw [if_neg hn, if_neg hn]
    | f1 + 1, f2 + 1 =>
      show translateLoopAux (f1 + 1) layout value locale lo vo out =
        translateLoopAux (f2 + 1) layout value locale lo vo out
      unfold translateLoopAux
      split
      · rename_i hlt
        cases hs : translateStep layout value locale lo vo out with
        | panicked => rfl
        | failed e => rfl
        | next lo' vo' out' =>
          have hinc : lo < lo' := translateStep_lt hs
          exact ih f1 (by omega) f2 lo' vo' out' (by omega) (by omega)
      · rfl

/-- `Translate(layout, value, locale)` from lunes.go. -/
def Translate (layout value : Str) (locale : Locale) : GoResult :=
  translateLoop layout value locale 0 0 []

/-- A `[5][]string` locale table record, with the field order of the
generated tables (`shortDayNamesField = iota`, ...). -/
structure LocaleTable where
  shortDayNames : List Str
  longDayNames : List Str
  shortMonthNames : List Str
  longMonthNames : List Str
  dayPeriods : List Str
deriving DecidableEq, Repr

/-- Exact-key lookup in the generated `tables` map (Go map indexing). -/
def mapLookup : List (Str × LocaleTable) → Str → Option LocaleTable
  | [], _ => none
  | (k, t) :: rest, key => if k = key then some t else mapLookup rest key

/-- `ErrUnsupportedLocale` from locale.go. -/
inductive LocaleError where
  | unsupportedLocale (lang : Str)
deriving DecidableEq, Repr

/-- `NewDefaultLocale` from locale.go, with the generated `tables` map (whose
data is produced by generator.go and is not part of the scanned sources)
passed explicitly: exact-tag map lookup, `ErrUnsupportedLocale` on a miss,
and a `genericLocale` wrapping the found table on a hit. -/
def NewDefaultLocale (tables : List (Str × LocaleTable)) (lang : Str) :
    Except LocaleError Locale :=
  match mapLookup tables lang with
  | none => .error (.unsupportedLocale lang)
  | some t =>
    .ok { language := lang
          longDayNames := t.longDayNames
          shortDayNames := t.shortDayNames
          longMonthNames := t.longMonthNames
          shortMonthNames := t.shortMonthNames
          dayPeriods := t.dayPeriods }

theorem goSlice_getD {layout w : Str} {lo k i : Nat}
    (h : goSlice layout lo (lo + k) = w) (hik : i < k) :
    layout.getD (lo + i) 0 = w.getD i 0 := by
  subst h
  unfold goSlice
  simp [List.getD_eq_getElem?_getD, List.getElem?_take, List.getElem?_drop, hik]

theorem goSlice_mono {layout : Str} {lo k j : Nat} (hjk : j ≤ k) :
    goSlice layout lo (lo + j) = (goSlice layout lo (lo + k)).take j := by
  unfold goSlice
  simp [List.take_take, Nat.min_eq_left hjk]

theorem tokenAction_empty {layoutElem : Str} {stdTab : List Str} {language : Str}
    {lo vo : Nat} {out value : Str} :
    tokenAction layoutElem [] stdTab language lo vo out value =
      .failed (.unsupportedLayoutElem layoutElem language) := by
  simp [tokenAction]

theorem tokenAction_mismatch {layoutElem : Str} {lookupTab stdTab : List Str}
    {language : Str} {lo vo : Nat} {out value : Str} {no sk : Nat} {mv : Str}
    (hne : lookupTab ≠ [])
    (hlk : lookup lookupTab vo value stdTab = some (no, sk, [], mv)) :
    tokenAction layoutElem lookupTab stdTab language lo vo out value =
      .failed (.layoutMismatch layoutElem value) := by
  unfold tokenAction writeLayoutValue
  rw [hlk]
  simp [List.length_eq_zero, hne]

/-- A `January` token is recognized at `lo`: the step reduces to the
long-month token action. -/
theorem translateStep_january {layout value : Str} {locale : Locale}
    {lo vo : Nat} {out : Str}
    (h7 : lo + 7 ≤ layout.length)
    (hsl : goSlice layout lo (lo + 7) = ascii "January") :
    translateStep layout value locale lo vo out =
      tokenAction (ascii "January") locale.longMonthNames longMonthNamesStd
        locale.language lo vo out value := by
  have hc : layout[lo]?.getD 0 = 74 := by
    have := goSlice_getD hsl (i := 0) (by omega)
    simpa [List.getD_eq_getElem?_getD] using this
  have h3 : goSlice layout lo (lo + 3) = ascii "Jan" := by
    rw [goSlice_mono (k := 7) (by omega), hsl]
    rfl
  have h3len : lo + 3 ≤ layout.length := by omega
  unfold translateStep stepJ
  simp [List.getD_eq_getElem?_getD, hc, h3, hsl, h7, h3len]

/-- A short `Jan` token is recognized at `lo` (no `January`, no lowercase
letter after `Jan`): the step reduces to the short-month token action. -/
theorem translateStep_jan {layout value : Str} {locale : Locale}
    {lo vo : Nat} {out : Str}
    (h3 : lo + 3 ≤ layout.length)
    (hsl : goSlice layout lo (lo + 3) = ascii "Jan")
    (hnotlong : ¬(lo + 7 ≤ layout.length ∧ goSlice layout lo (lo + 7) = ascii "January"))
    (hlow : ¬ startsWithLowerCase (layout.drop (lo + 3)) = true) :
    translateStep layout value locale lo vo out =
      tokenAction (ascii "Jan") locale.shortMonthNames shortMonthNamesStd
        locale.language lo vo out value := by
  have hc : layout[lo]?.getD 0 = 74 := by
    have := goSlice_getD hsl (i := 0) (by omega)
    simpa [List.getD_eq_getElem?_getD] using this
  unfold translateStep stepJ
  simp [List.getD_eq_getElem?_getD, hc, h3, hsl, hnotlong, hlow]

/-- A `Monday` token is recognized at `lo`. -/
theorem translateStep_monday {layout value : Str} {locale : Locale}
    {lo vo : Nat} {out : Str}
    (h6 : lo + 6 ≤ layout.length)
    (hsl : goSlice layout lo (lo + 6) = ascii "Monday") :
    translateStep layout value locale lo vo out =
      tokenAction (ascii "Monday") locale.longDayNames longDayNamesStd
        locale.language lo vo out value := by
  have hc : layout[lo]?.getD 0 = 77 := by
    have := goSlice_getD hsl (i := 0) (by omega)
    simpa [List.getD_eq_getElem?_getD] using this
  have h3 : goSlice layout lo (lo + 3) = ascii "Mon" := by
    rw [goSlice_mono (k := 6) (by omega), hsl]
    rfl
  have h3len : lo + 3 ≤ layout.length := by omega
  have hc74 : ¬ layout[lo]?.getD 0 = 74 := by omega
  unfold translateStep stepM
  simp [List.getD_eq_getElem?_getD, hc, hc74, h3, hsl, h6, h3len]

/-- A short `Mon` token is recognized at `lo`. -/
theorem translateStep_mon {layout value : Str} {locale : Locale}
    {lo vo : Nat} {out : Str}
    (h3 : lo + 3 ≤ layout.length)
    (hsl : goSlice layout lo (lo + 3) = ascii "Mon")
    (hnotlong : ¬(lo + 6 ≤ layout.length ∧ goSlice layout lo (lo + 6) = ascii "Monday"))
    (hlow : ¬ startsWithLowerCase (layout.drop (lo + 3)) = true) :
    translateStep layout value locale lo vo out =
      tokenAction (ascii "Mon") locale.shortDayNames shortDayNamesStd
        locale.language lo vo out value := by
  have hc : layout[lo]?.getD 0 = 77 := by
    have := goSlice_getD hsl (i := 0) (by omega)
    simpa [List.getD_eq_getElem?_getD] using this
  have hc74 : ¬ layout[lo]?.getD 0 = 74 := by omega
  unfold translateStep stepM
  simp [List.getD_eq_getElem?_getD, hc, hc74, h3, hsl, hnotlong, hlow]

/-- A `PM` token is recognized at `lo` (`P` or `p`, next byte uppercases to
`M`). -/
theorem translateStep_pm {layout value : Str} {locale : Locale}
    {lo vo : Nat} {out : Str}
    (h2 : lo + 2 ≤ layout.length)
    (hp : layout.getD lo 0 = 80 ∨ layout.getD lo 0 = 112)
    (hm : goToUpperByte (layout.getD (lo + 1) 0) = 77) :
    translateStep layout value locale lo vo out =
      tokenAction (ascii "PM") locale.dayPeriods dayPeriodsStd
        locale.language lo vo out value := by
  have hp' : layout[lo]?.getD 0 = 80 ∨ layout[lo]?.getD 0 = 112 := by
    simpa [List.getD_eq_getElem?_getD] using hp
  have hm' : goToUpperByte (layout[lo + 1]?.getD 0) = 77 := by
    simpa [List.getD_eq_getElem?_getD] using hm
  have h74 : ¬ layout[lo]?.getD 0 = 74 := by omega
  have h77 : ¬ layout[lo]?.getD 0 = 77 := by omega
  unfold translateStep stepP
  simp [List.getD_eq_getElem?_getD, h74, h77, hp', hm', h2]

theorem translateLoop_failed {layout value : Str} {locale : Locale}
    {lo vo : Nat} {out : Str} {e : TransError}
    (h : lo < layout.length)
    (hs : translateStep layout value locale lo vo out = .failed e) :
    translateLoop layout value locale lo vo out = .result [] (some e) := by
  unfold translateLoop
  obtain ⟨m, hm⟩ : ∃ m, layout.length - lo = m + 1 := ⟨layout.length - lo - 1, by omega⟩
  rw [hm]
  unfold translateLoopAux
  rw [if_pos h, hs]

theorem translateLoop_next {layout value : Str} {locale : Locale}
    {lo vo : Nat} {out : Str} {lo' vo' : Nat} {out' : Str}
    (h : lo < layout.length)
    (hs : translateStep layout value locale lo vo out = .next lo' vo' out') :
    translateLoop layout value locale lo vo out =
      translateLoop layout value locale lo' vo' out' := by
  have hinc : lo < lo' := translateStep_lt hs
  show translateLoopAux (layout.length - lo) layout value locale lo vo out = _
  obtain ⟨m, hm⟩ : ∃ m, layout.length - lo = m + 1 := ⟨layout.length - lo - 1, by omega⟩
  rw [hm]
  unfold translateLoopAux
  rw [if_pos h, hs]
  exact @translateLoopAux_fuel layout value locale m lo' vo' out' (by omega)

theorem translateLoop_done {layout value : Str} {locale : Locale}
    {lo vo : Nat} {out : Str}
    (h : ¬ lo < layout.length) (hv : vo ≤ value.length) :
    translateLoop layout value locale lo vo out =
      .result (out ++ value.drop vo) none := by
  unfold translateLoop
  have hm : layout.length - lo = 0 := by omega
  rw [hm]
  unfold translateLoopAux
  rw [if_neg h, if_pos hv]

/-- A locale with no translation tables at all (language tag `xx`). -/
def locEmpty : Locale :=
  { language := ascii "xx"
    longDayNames := []
    shortDayNames := []
    longMonthNames := []
    shortMonthNames := []
    dayPeriods := [] }

/-- A small concrete ASCII test locale (accent-stripped Spanish). -/
def locTest : Locale :=
  { language := ascii "es"
    longDayNames :=
      [ascii "domingo", ascii "lunes", ascii "martes", ascii "miercoles",
       ascii "jueves", ascii "viernes", ascii "sabado"]
    shortDayNames :=
      [ascii "dom", ascii "lun", ascii "mar", ascii "mie",
       ascii "jue", ascii "vie", ascii "sab"]
    longMonthNames :=
      [ascii "enero", ascii "febrero", ascii "marzo", ascii "abril",
       ascii "mayo", ascii "junio", ascii "julio", ascii "agosto",
       ascii "septiembre", ascii "octubre", ascii "noviembre", ascii "diciembre"]
    shortMonthNames :=
      [ascii "ene", ascii "feb", ascii "mar", ascii "abr", ascii "may", ascii "jun",
       ascii "jul", ascii "ago", ascii "sep", ascii "oct", ascii "nov", ascii "dic"]
    dayPeriods := [ascii "am", ascii "pm"] }

/-- Claim C9: the Translate scan loop terminates: every iteration that
continues strictly increases the layout cursor, so the number of iterations
is bounded by the layout length (and the whole operation by the input
lengths). -/
theorem translate_scan_strictly_increases :
    ∀ (layout value : Str) (locale : Locale) (lo vo : Nat) (out : Str)
      (lo' vo' : Nat) (out' : Str),
      translateStep layout value locale lo vo out = .next lo' vo' out' →
      lo < lo' :=
  fun _ _ _ _ _ _ _ _ _ h => translateStep_lt h

theorem translate_scan_strictly_increases_witness : (0 : Nat) < 1 :=
  translate_scan_strictly_increases [120] [121] locEmpty 0 0 [] 1 1 [121] (by decide)

/-- Claim C3: whenever the scan recognizes a weekday, month or day-period
token whose locale table is empty, the translation returns the
unsupported-layout-element error carrying that token's text (`January`,
`Jan`, `Monday`, `Mon` or `PM`) and the locale's language tag, and the
result string is empty regardless of the output accumulated so far. -/
theorem translate_unsupported_layout_elem :
    ∀ (layout value : Str) (locale : Locale) (lo vo : Nat) (out : Str),
      (lo + 7 ≤ layout.length →
        goSlice layout lo (lo + 7) = ascii "January" →
        locale.longMonthNames = [] →
        translateLoop layout value locale lo vo out =
          .result [] (some (.unsupportedLayoutElem (ascii "January") locale.language))) ∧
      (lo + 3 ≤ layout.length →
        goSlice layout lo (lo + 3) = ascii "Jan" →
        ¬(lo + 7 ≤ layout.length ∧ goSlice layout lo (lo + 7) = ascii "January") →
        ¬ startsWithLowerCase (layout.drop (lo + 3)) = true →
        locale.shortMonthNames = [] →
        translateLoop layout value locale lo vo out =
          .result [] (some (.unsupportedLayoutElem (ascii "Jan") locale.language))) ∧
      (lo + 6 ≤ layout.length →
        goSlice layout lo (lo + 6) = ascii "Monday" →
        locale.longDayNames = [] →
        translateLoop layout value locale lo vo out =
          .result [] (some (.unsupportedLayoutElem (ascii "Monday") locale.language))) ∧
      (lo + 3 ≤ layout.length →
        goSlice layout lo (lo + 3) = ascii "Mon" →
        ¬(lo + 6 ≤ layout.length ∧ goSlice layout lo (lo + 6) = ascii "Monday") →
        ¬ startsWithLowerCase (layout.drop (lo + 3)) = true →
        locale.shortDayNames = [] →
        translateLoop layout value locale lo vo out =
          .result [] (some (.unsupportedLayoutElem (ascii "Mon") locale.language))) ∧
      (lo + 2 ≤ layout.length →
        (layout.getD lo 0 = 80 ∨ layout.getD lo 0 = 112) →
        goToUpperByte (layout.getD (lo + 1) 0) = 77 →
        locale.dayPeriods = [] →
        translateLoop layout value locale lo vo out =
          .result [] (some (.unsupportedLayoutElem (ascii "PM") locale.language))) := by
  intro layout value locale lo vo out
  refine ⟨?_, ?_, ?_, ?_, ?_⟩
  · intro h7 hsl hemp
    rw [translateLoop_failed (by omega)
      (by rw [translateStep_january h7 hsl, hemp, tokenAction_empty])]
  · intro h3 hsl hnl hlow hemp
    rw [translateLoop_failed (by omega)
      (by rw [translateStep_jan h3 hsl hnl hlow, hemp, tokenAction_empty])]
  · intro h6 hsl hemp
    rw [translateLoop_failed (by omega)
      (by rw [translateStep_monday h6 hsl, hemp, tokenAction_empty])]
  · intro h3 hsl hnl hlow hemp
    rw [translateLoop_failed (by omega)
      (by rw [translateStep_mon h3 hsl hnl hlow, hemp, tokenAction_empty])]
  · intro h2 hp hm hemp
    rw [translateLoop_failed (by omega)
      (by rw [translateStep_pm h2 hp hm, hemp, tokenAction_empty])]

theorem translate_unsupported_layout_elem_witness :
    translateLoop (ascii "Mon February 2006") (ascii "Mon February 2010")
        locEmpty 0 0 [] =
      .result [] (some (.unsupportedLayoutElem (ascii "Mon") (ascii "xx"))) :=
  ((translate_unsupported_layout_elem (ascii "Mon February 2006")
      (ascii "Mon February 2010") locEmpty 0 0 []).2.2.2.1)
    (by decide) (by decide) (by decide) (by decide) rfl

/-- Claim C4: whenever a recognized locale token's lookup finds no matching
entry (empty canonical match), the translation fails with the layout-mismatch
error carrying the token's text and the value, aborts at once, and the result
string is empty regardless of the output accumulated so far. -/
theorem translate_layout_mismatch :
    ∀ (layout value : Str) (locale : Locale) (lo vo : Nat) (out : Str)
      (no sk : Nat) (mv : Str),
      (lo + 7 ≤ layout.length →
        goSlice layout lo (lo + 7) = ascii "January" →
        locale.longMonthNames ≠ [] →
        lookup locale.longMonthNames vo value longMonthNamesStd = some (no, sk, [], mv) →
        translateLoop layout value locale lo vo out =
          .result [] (some (.layoutMismatch (ascii "January") value))) ∧
      (lo + 3 ≤ layout.length →
        goSlice layout lo (lo + 3) = ascii "Jan" →
        ¬(lo + 7 ≤ layout.length ∧ goSlice layout lo (lo + 7) = ascii "January") →
        ¬ startsWithLowerCase (layout.drop (lo + 3)) = true →
        locale.shortMonthNames ≠ [] →
        lookup locale.shortMonthNames vo value shortMonthNamesStd = some (no, sk, [], mv) →
        translateLoop layout value locale lo vo out =
          .result [] (some (.layoutMismatch (ascii "Jan") value))) ∧
      (lo + 6 ≤ layout.length →
        goSlice layout lo (lo + 6) = ascii "Monday" →
        locale.longDayNames ≠ [] →
        lookup locale.longDayNames vo value longDayNamesStd = some (no, sk, [], mv) →
        translateLoop layout value locale lo vo out =
          .result [] (some (.layoutMismatch (ascii "Monday") value))) ∧
      (lo + 3 ≤ layout.length →
        goSlice layout lo (lo + 3) = ascii "Mon" →
        ¬(lo + 6 ≤ layout.length ∧ goSlice layout lo (lo + 6) = ascii "Monday") →
        ¬ startsWithLowerCase (layout.drop (lo + 3)) = true →
        locale.shortDayNames ≠ [] →
        lookup locale.shortDayNames vo value shortDayNamesStd = some (no, sk, [], mv) →
        translateLoop layout value locale lo vo out =
          .result [] (some (.layoutMismatch (ascii "Mon") value))) ∧
      (lo + 2 ≤ layout.length →
        (layout.getD lo 0 = 80 ∨ layout.getD lo 0 = 112) →
        goToUpperByte (layout.getD (lo + 1) 0) = 77 →
        locale.dayPeriods ≠ [] →
        lookup locale.dayPeriods vo value dayPeriodsStd = some (no, sk, [], mv) →
        translateLoop layout value locale lo vo out =
          .result [] (some (.layoutMismatch (ascii "PM") value))) := by
  intro layout value locale lo vo out no sk mv
  refine ⟨?_, ?_, ?_, ?_, ?_⟩
  · intro h7 hsl hne hlk
    rw [translateLoop_failed (by omega)
      (by rw [translateStep_january h7 hsl, tokenAction_mismatch hne hlk])]
  · intro h3 hsl hnl hlow hne hlk
    rw [translateLoop_failed (by omega)
      (by rw [translateStep_jan h3 hsl hnl hlow, tokenAction_mismatch hne hlk])]
  · intro h6 hsl hne hlk
    rw [translateLoop_failed (by omega)
      (by rw [translateStep_monday h6 hsl, tokenAction_mismatch hne hlk])]
  · intro h3 hsl hnl hlow hne hlk
    rw [translateLoop_failed (by omega)
      (by rw [translateStep_mon h3 hsl hnl hlow, tokenAction_mismatch hne hlk])]
  · intro h2 hp hm hne hlk
    rw [translateLoop_failed (by omega)
      (by rw [translateStep_pm h2 hp hm, tokenAction_mismatch hne hlk])]

theorem translate_layout_mismatch_witness :
    translateLoop (ascii "PM") (ascii "zz") locTest 0 0 [] =
      .result [] (some (.layoutMismatch (ascii "PM") (ascii "zz"))) :=
  ((translate_layout_mismatch (ascii "PM") (ascii "zz") locTest 0 0 [] 0 0 []).2.2.2.2)
    (by decide) (by decide) (by decide) (by decide) (by decide)

/-- The exact conditions under which one iteration of the `Translate` scan
loop recognizes (and consumes) a token at layout position `lo` / value
position `vo`, mirroring the `switch` cases of lunes.go (`written` becomes
true, or an error is returned).  Locale tables play no role in recognition. -/
def tokenRecognizedAt (layout value : Str) (lo vo : Nat) : Prop :=
  (layout.getD lo 0 = 74 ∧ lo + 3 ≤ layout.length ∧
    goSlice layout lo (lo + 3) = ascii "Jan" ∧
    ((lo + 7 ≤ layout.length ∧ goSlice layout lo (lo + 7) = ascii "January") ∨
      ¬ startsWithLowerCase (layout.drop (lo + 3)) = true)) ∨
  (layout.getD lo 0 = 77 ∧ lo + 3 ≤ layout.length ∧
    goSlice layout lo (lo + 3) = ascii "Mon" ∧
    ((lo + 6 ≤ layout.length ∧ goSlice layout lo (lo + 6) = ascii "Monday") ∨
      ¬ startsWithLowerCase (layout.drop (lo + 3)) = true)) ∨
  ((layout.getD lo 0 = 80 ∨ layout.getD lo 0 = 112) ∧ lo + 2 ≤ layout.length ∧
    goToUpperByte (layout.getD (lo + 1) 0) = 77) ∨
  (layout.getD lo 0 = 95 ∧
    ((lo + 2 ≤ layout.length ∧ layout.getD (lo + 1) 0 = 50 ∧
        underscoreSize layout value lo vo > 0) ∨
      (lo + 3 ≤ layout.length ∧ layout.getD (lo + 1) 0 = 95 ∧
        layout.getD (lo + 2) 0 = 50 ∧ value.length ≥ vo + 3)))

instance (layout value : Str) (lo vo : Nat) :
    Decidable (tokenRecognizedAt layout value lo vo) := by
  unfold tokenRecognizedAt
  exact inferInstance

/-- Claim C1 (amended): when no token is recognized at the current position,
the step falls through to the literal copy: the layout cursor advances by
exactly one, and — if any value remains — the byte at `value[valuePos]` is
written re-encoded as the UTF-8 of the code point equal to that byte, with
the value cursor advancing by the number of bytes written (1 for bytes
< 0x80, for which the copy is verbatim; 2 for bytes ≥ 0x80; 0 when no value
remains). -/
theorem translate_literal_fallthrough :
    ∀ (layout value : Str) (lo vo : Nat) (out : Str) (locale : Locale),
      ¬ tokenRecognizedAt layout value lo vo →
      translateStep layout value locale lo vo out = literalStep value lo vo out ∧
      (vo < value.length →
        literalStep value lo vo out =
          .next (lo + 1) (vo + (utf8EncodeByteRune (value.getD vo 0)).length)
            (out ++ utf8EncodeByteRune (value.getD vo 0))) ∧
      (value.length ≤ vo → literalStep value lo vo out = .next (lo + 1) vo out) ∧
      (value.getD vo 0 < 128 → utf8EncodeByteRune (value.getD vo 0) = [value.getD vo 0]) := by
  intro layout value lo vo out locale h
  refine ⟨?_, ?_, ?_, ?_⟩
  · unfold translateStep
    split
    · rename_i hc
      unfold stepJ
      split
      · rename_i hJan
        split
        · rename_i hJanuary
          exact absurd (Or.inl ⟨hc, hJan.1, hJan.2, Or.inl hJanuary⟩) h
        · split
          · rename_i hlow
            exact absurd (Or.inl ⟨hc, hJan.1, hJan.2, Or.inr hlow⟩) h
          · rfl
      · rfl
    · split
      · rename_i hc' hc
        unfold stepM
        split
        · rename_i hMon
          split
          · rename_i hMonday
            exact absurd (Or.inr (Or.inl ⟨hc, hMon.1, hMon.2, Or.inl hMonday⟩)) h
          · split
            · rename_i hlow
              exact absurd (Or.inr (Or.inl ⟨hc, hMon.1, hMon.2, Or.inr hlow⟩)) h
            · rfl
        · rfl
      · split
        · rename_i hc
          unfold stepP
          split
          · rename_i hpm
            exact absurd (Or.inr (Or.inr (Or.inl ⟨hc, hpm.1, hpm.2⟩))) h
          · rfl
        · split
          · rename_i hc
            unfold stepUnderscore
            have hfirst : underscoreFirst layout value lo vo out = none := by
              unfold underscoreFirst
              split
              · rename_i h2
                split
                · rename_i hsize
                  exact absurd (Or.inr (Or.inr (Or.inr
                    ⟨hc, Or.inl ⟨h2.1, h2.2, hsize⟩⟩))) h
                · rfl
              · rfl
            rw [hfirst]
            split
            · rename_i heq
              simp at heq
            · rename_i heq
              simp at heq
            · split
              · rename_i hsecond
                split
                · rename_i hval
                  exact absurd (Or.inr (Or.inr (Or.inr
                    ⟨hc, Or.inr ⟨hsecond.1, hsecond.2.1, hsecond.2.2, hval⟩⟩))) h
                · rfl
              · rfl
          · rfl
  · intro hvo
    unfold literalStep
    rw [if_pos (by omega)]
  · intro hvo
    unfold literalStep
    rw [if_neg (by omega)]
  · intro hb
    unfold utf8EncodeByteRune
    rw [if_pos hb]

theorem translate_literal_fallthrough_witness :
    translateStep [120] [121] locEmpty 0 0 [] = literalStep [121] 0 0 [] :=
  (translate_literal_fallthrough [120] [121] 0 0 [] locEmpty (by decide)).1

/-- Claim C1 counterexample: at a literal layout position with a non-ASCII
value byte (0xC3), `Translate` does not copy the byte verbatim (it writes the
two-byte UTF-8 encoding 0xC3 0x83 of code point U+00C3) and the value cursor
advances by 2, not by exactly one. -/
theorem translate_literal_nonascii_counterexample :
    Translate [120] [195] locEmpty = .result [195, 131] none ∧
    translateStep [120] [195] locEmpty 0 0 [] = .next 1 2 [195, 131] ∧
    ([195, 131] : Str) ≠ [195] ∧ (2 : Nat) ≠ 0 + 1 := by
  refine ⟨by decide, by decide, by decide, by decide⟩

theorem skipSpaces_ge (value : Str) : ∀ (offset : Nat), offset ≤ skipSpaces value offset := by
  suffices H : ∀ n offset, value.length - offset ≤ n → offset ≤ skipSpaces value offset by
    intro offset
    exact H value.length offset (by omega)
  intro n
  induction n with
  | zero =>
    intro offset hn
    rw [skipSpaces_eq]
    split
    · rename_i hcond
      exact absurd hcond.1 (by omega)
    · exact Nat.le_refl _
  | succ n ih =>
    intro offset hn
    rw [skipSpaces_eq]
    split
    · rename_i hcond
      have := ih (offset + 1) (by omega)
      omega
    · exact Nat.le_refl _

theorem skipSpaces_le (value : Str) :
    ∀ (offset : Nat), offset ≤ value.length → skipSpaces value offset ≤ value.length := by
  suffices H : ∀ n offset, value.length - offset ≤ n → offset ≤ value.length →
      skipSpaces value offset ≤ value.length by
    intro offset h
    exact H value.length offset (by omega) h
  intro n
  induction n with
  | zero =>
    intro offset hn hoff
    rw [skipSpaces_eq]
    split
    · rename_i hcond
      exact absurd hcond.1 (by omega)
    · exact hoff
  | succ n ih =>
    intro offset hn hoff
    rw [skipSpaces_eq]
    split
    · rename_i hcond
      exact ih (offset + 1) (by omega) (by omega)
    · exact hoff

theorem skipSpaces_spaces (value : Str) :
    ∀ (offset i : Nat), offset ≤ i → i < skipSpaces value offset →
      isSpaceByte (value.getD i 0) = true := by
  suffices H : ∀ n offset, value.length - offset ≤ n → ∀ i, offset ≤ i →
      i < skipSpaces value offset → isSpaceByte (value.getD i 0) = true by
    intro offset i h1 h2
    exact H value.length offset (by omega) i h1 h2
  intro n
  induction n with
  | zero =>
    intro offset hn i hi1 hi2
    rw [skipSpaces_eq] at hi2
    split at hi2
    · rename_i hcond
      exact absurd hcond.1 (by omega)
    · omega
  | succ n ih =>
    intro offset hn i hi1 hi2
    rw [skipSpaces_eq] at hi2
    split at hi2
    · rename_i hcond
      rcases Nat.eq_or_lt_of_le hi1 with heq | hlt
      · subst heq
        exact hcond.2
      · exact ih (offset + 1) (by omega) i (by omega) hi2
    · omega

theorem skipSpaces_stop (value : Str) :
    ∀ (offset : Nat), skipSpaces value offset < value.length →
      isSpaceByte (value.getD (skipSpaces value offset) 0) = false := by
  suffices H : ∀ n offset, value.length - offset ≤ n →
      skipSpaces value offset < value.length →
      isSpaceByte (value.getD (skipSpaces value offset) 0) = false by
    intro offset h
    exact H value.length offset (by omega) h
  intro n
  induction n with
  | zero =>
    intro offset hn
    rw [skipSpaces_eq]
    split
    · rename_i hcond
      exact absurd hcond.1 (by omega)
    · rename_i hcond
      intro hlt
      cases hb : isSpaceByte (value.getD offset 0) with
      | false => rfl
      | true => exact absurd ⟨hlt, hb⟩ hcond
  | succ n ih =>
    intro offset hn
    rw [skipSpaces_eq]
    split
    · rename_i hcond
      exact ih (offset + 1) (by omega)
    · rename_i hcond
      intro hlt
      cases hb : isSpaceByte (value.getD offset 0) with
      | false => rfl
      | true => exact absurd ⟨hlt, hb⟩ hcond

theorem goSlice_cons {value : Str} {off : Nat} (h : off < value.length) (k : Nat) :
    goSlice value off (off + (k + 1)) =
      value.getD off 0 :: goSlice value (off + 1) (off + 1 + k) := by
  unfold goSlice
  rw [List.drop_eq_getElem_cons h]
  have e1 : off + (k + 1) - off = k + 1 := by omega
  have e2 : off + 1 + k - (off + 1) = k := by omega
  rw [e1, e2, List.take_succ_cons, List.getD_eq_getElem value 0 h]

/-- The byte-to-string conversion accumulated by the copy loop of
`nextNonSpaceValue`: each consumed byte contributes the UTF-8 encoding of
the code point equal to that byte (`string(value[newOffset])` in Go). -/
def encBytes : Str → Str
  | [] => []
  | b :: s => utf8EncodeByteRune b ++ encBytes s

theorem encBytes_slice_cons {value : Str} {off : Nat} (h : off < value.length) (k : Nat) :
    encBytes (goSlice value off (off + (k + 1))) =
      utf8EncodeByteRune (value.getD off 0) ++ encBytes (goSlice value (off + 1) (off + 1 + k)) := by
  rw [goSlice_cons h k]
  rfl

/-- The value bytes consumed by a `'_'`-class token with copy budget `max`
starting at value offset `vo`, exactly as `nextNonSpaceValue` behaves:
leading whitespace is skipped (every skipped byte is whitespace), then `n`
non-space value bytes are consumed, each emitted as the UTF-8 encoding of
its code point (`encBytes`), and consumption stopped because the emitted
output hit exactly `max` bytes (never at an earlier step), the value ended,
or the next byte is whitespace. -/
def nonSpaceCopy (value : Str) (vo max n : Nat) : Prop :=
  (∀ i, i < n → skipSpaces value vo + i < value.length ∧
    isSpaceByte (value.getD (skipSpaces value vo + i) 0) = false) ∧
  (∀ k, 1 ≤ k → k < n →
    (encBytes (goSlice value (skipSpaces value vo) (skipSpaces value vo + k))).length ≠ max) ∧
  ((0 < n ∧ (encBytes (goSlice value (skipSpaces value vo)
      (skipSpaces value vo + n))).length = max) ∨
    skipSpaces value vo + n = value.length ∨
    (skipSpaces value vo + n < value.length ∧
      isSpaceByte (value.getD (skipSpaces value vo + n) 0) = true)) ∧
  (∀ i, vo ≤ i → i < skipSpaces value vo → isSpaceByte (value.getD i 0) = true)

theorem takeNonSpaceLoop_spec (value : Str) (max : Nat) :
    ∀ (off : Nat) (acc : Str), off ≤ value.length →
      ∃ n : Nat,
        takeNonSpaceLoop value max off acc =
          (off + n, acc ++ encBytes (goSlice value off (off + n))) ∧
        (∀ i, i < n → off + i < value.length ∧
          isSpaceByte (value.getD (off + i) 0) = false) ∧
        (∀ k, 1 ≤ k → k < n →
          (acc ++ encBytes (goSlice value off (off + k))).length ≠ max) ∧
        ((0 < n ∧ (acc ++ encBytes (goSlice value off (off + n))).length = max) ∨
          off + n = value.length ∨
          (off + n < value.length ∧ isSpaceByte (value.getD (off + n) 0) = true)) := by
  suffices H : ∀ m off acc, value.length - off ≤ m → off ≤ value.length →
      ∃ n : Nat,
        takeNonSpaceLoop value max off acc =
          (off + n, acc ++ encBytes (goSlice value off (off + n))) ∧
        (∀ i, i < n → off + i < value.length ∧
          isSpaceByte (value.getD (off + i) 0) = false) ∧
        (∀ k, 1 ≤ k → k < n →
          (acc ++ encBytes (goSlice value off (off + k))).length ≠ max) ∧
        ((0 < n ∧ (acc ++ encBytes (goSlice value off (off + n))).length = max) ∨
          off + n = value.length ∨
          (off + n < value.length ∧ isSpaceByte (value.getD (off + n) 0) = true)) by
    intro off acc hoff
    exact H value.length off acc (by omega) hoff
  intro m
  induction m with
  | zero =>
    intro off acc hm hoff
    rw [takeNonSpaceLoop_eq, if_neg (by omega)]
    refine ⟨0, ?_, by omega, by omega, Or.inr (Or.inl (by omega))⟩
    show (off, acc) = (off + 0, acc ++ encBytes (goSlice value off (off + 0)))
    simp [goSlice, encBytes]
  | succ m ih =>
    intro off acc hm hoff
    rw [takeNonSpaceLoop_eq]
    split
    · rename_i hlt
      split
      · rename_i hsp
        refine ⟨0, ?_, by omega, by omega, Or.inr (Or.inr ⟨by omega, by simpa using hsp⟩)⟩
        show (off, acc) = (off + 0, acc ++ encBytes (goSlice value off (off + 0)))
        simp [goSlice, encBytes]
      · rename_i hsp
        have hsl1 : encBytes (goSlice value off (off + 1)) =
            utf8EncodeByteRune (value.getD off 0) := by
          rw [show off + 1 = off + (0 + 1) from rfl, encBytes_slice_cons hlt 0]
          simp [goSlice, encBytes]
        split
        · rename_i hmax
          refine ⟨1, ?_, ?_, by omega, Or.inl ⟨by omega, ?_⟩⟩
          · rw [hsl1]
          · intro i hi
            have : i = 0 := by omega
            subst this
            exact ⟨by simpa using hlt, by simpa using hsp⟩
          · rw [hsl1]
            exact hmax
        · rename_i hmax
          obtain ⟨n', h1, h2, h3, h4⟩ :=
            ih (off + 1) (acc ++ utf8EncodeByteRune (value.getD off 0)) (by omega) (by omega)
          have hdec : ∀ j : Nat, acc ++ encBytes (goSlice value off (off + (j + 1))) =
              (acc ++ utf8EncodeByteRune (value.getD off 0)) ++
                encBytes (goSlice value (off + 1) (off + 1 + j)) := by
            intro j
            rw [encBytes_slice_cons hlt j, List.append_assoc]
          refine ⟨n' + 1, ?_, ?_, ?_, ?_⟩
          · rw [h1, hdec n']
            have e : off + 1 + n' = off + (n' + 1) := by omega
            rw [e]
          · intro i hi
            rcases Nat.eq_zero_or_pos i with rfl | hipos
            · exact ⟨by simpa using hlt, by simpa using hsp⟩
            · obtain ⟨j, rfl⟩ : ∃ j, i = j + 1 := ⟨i - 1, by omega⟩
              have := h2 j (by omega)
              refine ⟨by omega, ?_⟩
              have e : off + 1 + j = off + (j + 1) := by omega
              rw [e] at this
              exact this.2
          · intro k hk1 hk2
            rcases Nat.eq_or_lt_of_le hk1 with hke | hkgt
            · subst hke
              rw [hsl1]
              exact hmax
            · obtain ⟨j, rfl⟩ : ∃ j, k = j + 1 := ⟨k - 1, by omega⟩
              rw [hdec j]
              exact h3 j (by omega) (by omega)
          · rcases h4 with ⟨hpos, hmx⟩ | hend | ⟨hlt2, hsp2⟩
            · refine Or.inl ⟨by omega, ?_⟩
              rw [hdec n']
              exact hmx
            · exact Or.inr (Or.inl (by omega))
            · refine Or.inr (Or.inr ⟨by omega, ?_⟩)
              have e : off + 1 + n' = off + (n' + 1) := by omega
              rw [e] at hsp2
              exact hsp2
    · rename_i hlt
      refine ⟨0, ?_, by omega, by omega, Or.inr (Or.inl (by omega))⟩
      show (off, acc) = (off + 0, acc ++ encBytes (goSlice value off (off + 0)))
      simp [goSlice, encBytes]

theorem nextNonSpaceValue_spec (value : Str) (offset max : Nat)
    (hoff : offset ≤ value.length) :
    ∃ n : Nat,
      nextNonSpaceValue value offset max =
        .ok (skipSpaces value offset + n, skipSpaces value offset - offset,
          encBytes (goSlice value (skipSpaces value offset)
            (skipSpaces value offset + n))) ∧
      nonSpaceCopy value offset max n := by
  have hle := skipSpaces_le value offset hoff
  obtain ⟨n, h1, h2, h3, h4⟩ :=
    takeNonSpaceLoop_spec value max (skipSpaces value offset) [] hle
  refine ⟨n, ?_, h2, by simpa using h3, by simpa using h4,
    skipSpaces_spaces value offset⟩
  unfold nextNonSpaceValue
  rw [if_neg (by omega)]
  rw [show (takeNonSpaceLoop value max (skipSpaces value offset) []) =
    ((takeNonSpaceLoop value max (skipSpaces value offset) []).1,
      (takeNonSpaceLoop value max (skipSpaces value offset) []).2) from rfl]
  rw [h1]
  simp

theorem writeNextNonSpaceValue_spec (value : Str) (offset max : Nat)
    (hoff : offset ≤ value.length) :
    ∃ n : Nat,
      writeNextNonSpaceValue value offset max =
        .ok (skipSpaces value offset + n,
          List.replicate (skipSpaces value offset - offset) 32 ++
            encBytes (goSlice value (skipSpaces value offset)
              (skipSpaces value offset + n))) ∧
      nonSpaceCopy value offset max n := by
  obtain ⟨n, h1, h2⟩ := nextNonSpaceValue_spec value offset max hoff
  refine ⟨n, ?_, h2⟩
  unfold writeNextNonSpaceValue
  rw [h1]

theorem stepUnderscore_of_first_none {layout value : Str} {lo vo : Nat} {out : Str}
    (h : underscoreFirst layout value lo vo out = none) :
    stepUnderscore layout value lo vo out =
      (if lo + 3 ≤ layout.length ∧ layout.getD (lo + 1) 0 = 95 ∧
          layout.getD (lo + 2) 0 = 50 then
        if value.length ≥ vo + 3 then
          match writeNextNonSpaceValue value vo 3 with
          | .error e => .failed e
          | .ok (vo2, w2) => .next (lo + 3) vo2 (out ++ w2)
        else literalStep value lo vo out
      else literalStep value lo vo out) := by
  unfold stepUnderscore
  rw [h]

theorem stepUnderscore_of_first_ok {layout value : Str} {lo vo : Nat} {out : Str}
    {lo1 vo1 : Nat} {out1 : Str}
    (h : underscoreFirst layout value lo vo out = some (.ok (lo1, vo1, out1))) :
    stepUnderscore layout value lo vo out =
      (if lo1 + 3 ≤ layout.length ∧ layout.getD (lo1 + 1) 0 = 95 ∧
          layout.getD (lo1 + 2) 0 = 50 then
        if value.length ≥ vo1 + 3 then
          match writeNextNonSpaceValue value vo1 3 with
          | .error e => .failed e
          | .ok (vo2, w2) => .next (lo1 + 3) vo2 (out1 ++ w2)
        else .next lo1 vo1 out1
      else .next lo1 vo1 out1) := by
  unfold stepUnderscore
  rw [h]

/-- Claim C5 (amended): the `'_'`-class markers are handled without
consulting any locale table (the conclusions hold for every locale
uniformly): `_2006` is a 5-byte layout token with copy budget 5, `_2` (not
followed by `006`) a 2-byte token with budget 2, `__2` a 3-byte token with
budget 3.  Leading whitespace is skipped and re-emitted as one 0x20 byte per
skipped byte; then `n` non-space value bytes are consumed, each emitted as
the UTF-8 encoding of its code point (one byte if < 0x80, two bytes
otherwise), stopping when the emitted copy first reaches *exactly* the
budget in output bytes — a two-byte emission can step over the budget, after
which copying continues to the next whitespace or the end of the value — or
at the next whitespace or value end (`nonSpaceCopy`); the value cursor
advances by the `n` bytes consumed, not by the bytes written.  The handling
never produces an error on content, and insufficient remaining value length
(against the marker's fixed width) skips the token so that the step falls
through to default literal handling.  (The `_2006`/`_2` cases assume the
`__2` pattern does not immediately follow the consumed token, since the Go
code would then process both markers in one loop iteration.) -/
theorem translate_underscore_markers :
    ∀ (layout value : Str) (locale : Locale) (lo vo : Nat) (out : Str),
      layout.getD lo 0 = 95 →
      ((lo + 5 ≤ layout.length →
        goSlice layout (lo + 1) (lo + 5) = ascii "2006" →
        value.length ≥ vo + 5 →
        ¬(lo + 8 ≤ layout.length ∧ layout.getD (lo + 6) 0 = 95 ∧
            layout.getD (lo + 7) 0 = 50) →
        ∃ n : Nat,
          translateStep layout value locale lo vo out =
            .next (lo + 5) (skipSpaces value vo + n)
              (out ++ (List.replicate (skipSpaces value vo - vo) 32 ++
                encBytes (goSlice value (skipSpaces value vo)
                  (skipSpaces value vo + n)))) ∧
          nonSpaceCopy value vo 5 n) ∧
      (lo + 2 ≤ layout.length →
        layout.getD (lo + 1) 0 = 50 →
        ¬(lo + 5 ≤ layout.length ∧ goSlice layout (lo + 1) (lo + 5) = ascii "2006") →
        value.length ≥ vo + 2 →
        ¬(lo + 5 ≤ layout.length ∧ layout.getD (lo + 3) 0 = 95 ∧
            layout.getD (lo + 4) 0 = 50) →
        ∃ n : Nat,
          translateStep layout value locale lo vo out =
            .next (lo + 2) (skipSpaces value vo + n)
              (out ++ (List.replicate (skipSpaces value vo - vo) 32 ++
                encBytes (goSlice value (skipSpaces value vo)
                  (skipSpaces value vo + n)))) ∧
          nonSpaceCopy value vo 2 n) ∧
      (lo + 3 ≤ layout.length →
        layout.getD (lo + 1) 0 = 95 →
        layout.getD (lo + 2) 0 = 50 →
        value.length ≥ vo + 3 →
        ∃ n : Nat,
          translateStep layout value locale lo vo out =
            .next (lo + 3) (skipSpaces value vo + n)
              (out ++ (List.replicate (skipSpaces value vo - vo) 32 ++
                encBytes (goSlice value (skipSpaces value vo)
                  (skipSpaces value vo + n)))) ∧
          nonSpaceCopy value vo 3 n) ∧
      (lo + 5 ≤ layout.length →
        goSlice layout (lo + 1) (lo + 5) = ascii "2006" →
        value.length < vo + 5 →
        translateStep layout value locale lo vo out = literalStep value lo vo out) ∧
      (lo + 2 ≤ layout.length →
        layout.getD (lo + 1) 0 = 50 →
        ¬(lo + 5 ≤ layout.length ∧ goSlice layout (lo + 1) (lo + 5) = ascii "2006") →
        value.length < vo + 2 →
        translateStep layout value locale lo vo out = literalStep value lo vo out) ∧
      (lo + 3 ≤ layout.length →
        layout.getD (lo + 1) 0 = 95 →
        layout.getD (lo + 2) 0 = 50 →
        value.length < vo + 3 →
        translateStep layout value locale lo vo out = literalStep value lo vo out)) := by
  intro layout value locale lo vo out hc
  have hdispatch : translateStep layout value locale lo vo out =
      stepUnderscore layout value lo vo out := by
    unfold translateStep
    rw [if_neg (by omega), if_neg (by omega), if_neg (by omega), if_pos hc]
  refine ⟨?_, ?_, ?_, ?_, ?_, ?_⟩
  · intro h5 hsl hval hexcl
    have hsl4 : goSlice layout (lo + 1) ((lo + 1) + 4) = ascii "2006" := by
      have e : (lo + 1) + 4 = lo + 5 := by omega
      rw [e]
      exact hsl
    have h50 : layout.getD (lo + 1) 0 = 50 := by
      have h := goSlice_getD hsl4 (i := 0) (by omega)
      rw [show (ascii "2006").getD 0 0 = 50 from rfl] at h
      simpa using h
    obtain ⟨n, hw, hcopy⟩ := writeNextNonSpaceValue_spec value vo 5 (by omega)
    refine ⟨n, ?_, hcopy⟩
    have huf : underscoreFirst layout value lo vo out =
        some (.ok (lo + 5, skipSpaces value vo + n,
          out ++ (List.replicate (skipSpaces value vo - vo) 32 ++
            encBytes (goSlice value (skipSpaces value vo)
              (skipSpaces value vo + n))))) := by
      unfold underscoreFirst
      rw [if_pos ⟨by omega, h50⟩]
      have hsize : underscoreSize layout value lo vo = 5 := by
        unfold underscoreSize
        rw [if_pos ⟨h5, hsl⟩, if_pos (by omega)]
      rw [hsize, if_pos (by omega), hw]
    have hnosecond : ¬(lo + 5 + 3 ≤ layout.length ∧
        layout.getD (lo + 5 + 1) 0 = 95 ∧ layout.getD (lo + 5 + 2) 0 = 50) := by
      rintro ⟨hA, hB, hC⟩
      apply hexcl
      refine ⟨by omega, ?_, ?_⟩
      · have e : lo + 5 + 1 = lo + 6 := by omega
        rw [e] at hB
        exact hB
      · have e : lo + 5 + 2 = lo + 7 := by omega
        rw [e] at hC
        exact hC
    rw [hdispatch, stepUnderscore_of_first_ok huf, if_neg hnosecond]
  · intro h2 h50 hnot hval hexcl
    obtain ⟨n, hw, hcopy⟩ := writeNextNonSpaceValue_spec value vo 2 (by omega)
    refine ⟨n, ?_, hcopy⟩
    have huf : underscoreFirst layout value lo vo out =
        some (.ok (lo + 2, skipSpaces value vo + n,
          out ++ (List.replicate (skipSpaces value vo - vo) 32 ++
            encBytes (goSlice value (skipSpaces value vo)
              (skipSpaces value vo + n))))) := by
      unfold underscoreFirst
      rw [if_pos ⟨h2, h50⟩]
      have hsize : underscoreSize layout value lo vo = 2 := by
        unfold underscoreSize
        rw [if_neg hnot, if_pos (by omega)]
      rw [hsize, if_pos (by omega), hw]
    have hnosecond : ¬(lo + 2 + 3 ≤ layout.length ∧
        layout.getD (lo + 2 + 1) 0 = 95 ∧ layout.getD (lo + 2 + 2) 0 = 50) := by
      rintro ⟨hA, hB, hC⟩
      apply hexcl
      refine ⟨by omega, ?_, ?_⟩
      · have e : lo + 2 + 1 = lo + 3 := by omega
        rw [e] at hB
        exact hB
      · have e : lo + 2 + 2 = lo + 4 := by omega
        rw [e] at hC
        exact hC
    rw [hdispatch, stepUnderscore_of_first_ok huf, if_neg hnosecond]
  · intro h3 h95 h50 hval
    obtain ⟨n, hw, hcopy⟩ := writeNextNonSpaceValue_spec value vo 3 (by omega)
    refine ⟨n, ?_, hcopy⟩
    have huf : underscoreFirst layout value lo vo out = none := by
      unfold underscoreFirst
      rw [if_neg (by rintro ⟨-, hx⟩; omega)]
    rw [hdispatch, stepUnderscore_of_first_none huf, if_pos ⟨h3, h95, h50⟩,
      if_pos hval, hw]
  · intro h5 hsl hval
    have hsl4 : goSlice layout (lo + 1) ((lo + 1) + 4) = ascii "2006" := by
      have e : (lo + 1) + 4 = lo + 5 := by omega
      rw [e]
      exact hsl
    have h50 : layout.getD (lo + 1) 0 = 50 := by
      have h := goSlice_getD hsl4 (i := 0) (by omega)
      rw [show (ascii "2006").getD 0 0 = 50 from rfl] at h
      simpa using h
    have huf : underscoreFirst layout value lo vo out = none := by
      unfold underscoreFirst
      rw [if_pos ⟨by omega, h50⟩]
      have hsize : underscoreSize layout value lo vo = 0 := by
        unfold underscoreSize
        rw [if_pos ⟨h5, hsl⟩, if_neg (by omega)]
      rw [hsize, if_neg (by omega)]
    rw [hdispatch, stepUnderscore_of_first_none huf,
      if_neg (by rintro ⟨-, hx, -⟩; omega)]
  · intro h2 h50 hnot hval
    have huf : underscoreFirst layout value lo vo out = none := by
      unfold underscoreFirst
      rw [if_pos ⟨h2, h50⟩]
      have hsize : underscoreSize layout value lo vo = 0 := by
        unfold underscoreSize
        rw [if_neg hnot, if_neg (by omega)]
      rw [hsize, if_neg (by omega)]
    rw [hdispatch, stepUnderscore_of_first_none huf,
      if_neg (by rintro ⟨-, hx, -⟩; omega)]
  · intro h3 h95 h50 hval
    have huf : underscoreFirst layout value lo vo out = none := by
      unfold underscoreFirst
      rw [if_neg (by rintro ⟨-, hx⟩; omega)]
    rw [hdispatch, stepUnderscore_of_first_none huf, if_pos ⟨h3, h95, h50⟩,
      if_neg (by omega)]

theorem translate_underscore_markers_witness :
    ∃ n : Nat,
      translateStep (ascii "_2") (ascii " 7") locEmpty 0 0 [] =
        .next 2 (skipSpaces (ascii " 7") 0 + n)
          ([] ++ (List.replicate (skipSpaces (ascii " 7") 0 - 0) 32 ++
            encBytes (goSlice (ascii " 7") (skipSpaces (ascii " 7") 0)
              (skipSpaces (ascii " 7") 0 + n)))) ∧
      nonSpaceCopy (ascii " 7") 0 2 n :=
  ((translate_underscore_markers (ascii "_2") (ascii " 7") locEmpty 0 0 []
      (by decide)).2.1)
    (by decide) (by decide) (by decide) (by decide) (by decide)

/-- Claim C5 counterexample to the original reading: the `'_'`-marker copy
is not a verbatim transfer of up to `max` non-space value bytes.  Go's
`val += string(value[newOffset])` re-encodes the byte 0xC3 as the two bytes
0xC3 0x83, and `len(val) == max` counts those output bytes: under `_2` with
value `0xC3 0x41` the program consumes one value byte (not two) and emits
`0xC3 0x83` (not a value slice); under `__2` with value `0xC3 0xC3 0x41`
the output length jumps from 2 to 4 over the budget 3, so the copy runs on
and emits five bytes for three consumed. -/
theorem translate_underscore_counterexample :
    translateStep (ascii "_2") [195, 65] locEmpty 0 0 [] =
      .next 2 1 [195, 131] ∧
    ([195, 131] : Str) ≠ goSlice [195, 65] 0 2 ∧ (1 : Nat) ≠ 2 ∧
    translateStep (ascii "__2") [195, 195, 65] locEmpty 0 0 [] =
      .next 3 3 [195, 131, 195, 131, 65] ∧
    ¬ ([195, 131, 195, 131, 65] : Str).length ≤ 3 := by
  refine ⟨by decide, by decide, by decide, by decide, by decide⟩

theorem lookup_skipped {lookupTab stdTab : List Str} {offset : Nat} {val : Str}
    {r : Nat × Nat × Str × Str}
    (h : lookup lookupTab offset val stdTab = some r) :
    r.2.1 = skipSpaces val offset - offset := by
  have h' : (if skipSpaces val offset > val.length then
      some (offset, skipSpaces val offset - offset, ([] : Str), val)
    else
      match lookupLoop val (skipSpaces val offset) stdTab lookupTab 0 [] [] with
      | none => none
      | some (sv, v) =>
        some (skipSpaces val offset, skipSpaces val offset - offset, sv, v)) = some r := h
  split at h'
  · obtain rfl := Option.some.inj h'
    rfl
  · split at h'
    · exact absurd h' (by simp)
    · obtain rfl := Option.some.inj h'
      rfl

theorem nextNonSpaceValue_skipped {value : Str} {offset max : Nat}
    {t : Nat × Nat × Str}
    (h : nextNonSpaceValue value offset max = .ok t) :
    t.2.1 = skipSpaces value offset - offset := by
  have h' : (if skipSpaces value offset > value.length then
      (.error .nextNonSpaceNotFound : Except TransError (Nat × Nat × Str))
    else
      .ok ((takeNonSpaceLoop value max (skipSpaces value offset) []).1,
        skipSpaces value offset - offset,
        (takeNonSpaceLoop value max (skipSpaces value offset) []).2)) = .ok t := h
  split at h'
  · exact absurd h' (by simp)
  · obtain rfl := Except.ok.inj h'
    rfl

/-- Claim C6 counterexample: whitespace is not always preserved verbatim: a
tab byte (0x09) skipped in front of a recognized `PM` token is emitted as an
ASCII space — the translation succeeds, the value's whitespace run is the tab
byte, yet no tab occurs in the output. -/
theorem translate_whitespace_counterexample :
    Translate (ascii "PM") (9 :: ascii "pm") locTest = .result (ascii " PM") none ∧
    isSpaceByte 9 = true ∧ (9 : Nat) ∉ (ascii " PM" : Str) := by
  refine ⟨by decide, by decide, by decide⟩

/-- Claim C6 (amended): whitespace is handled per construct rather than
globally preserved verbatim: (1) the literal fallthrough copies any byte
< 0x80 — in particular the ASCII whitespace bytes 0x09–0x0D and 0x20 —
verbatim; (2) a recognized-token substitution emits exactly one 0x20 byte
per whitespace byte skipped before the match; (3) the same for
`'_'`-marker consumption; (4) when the skipped run consists only of 0x20
bytes the emitted spaces equal the run verbatim, so its length and position
are kept; (5) the value tail after the scan is appended verbatim; (6) a
non-ASCII whitespace byte (NEL 0x85, NBSP 0xA0) at a literal position is
re-encoded as its two-byte UTF-8 sequence, so verbatim preservation — and
the byte positions of everything after it — are not guaranteed for such
runs. -/
theorem translate_whitespace_runs :
    (∀ (value : Str) (lo vo : Nat) (out : Str),
      vo < value.length → value.getD vo 0 < 128 →
      literalStep value lo vo out = .next (lo + 1) (vo + 1) (out ++ [value.getD vo 0])) ∧
    (∀ (elem : Str) (tab std : List Str) (vo no : Nat) (value w : Str),
      writeLayoutValue elem tab std vo value = some (.ok (no, w)) →
      ∃ sv, w = List.replicate (skipSpaces value vo - vo) 32 ++ sv) ∧
    (∀ (vo max no : Nat) (value w : Str),
      writeNextNonSpaceValue value vo max = .ok (no, w) →
      ∃ tv, w = List.replicate (skipSpaces value vo - vo) 32 ++ tv) ∧
    (∀ (value : Str) (a b : Nat), a ≤ b → b ≤ value.length →
      (∀ i, a ≤ i → i < b → value.getD i 0 = 32) →
      List.replicate (b - a) 32 = goSlice value a b) ∧
    (∀ (layout value : Str) (locale : Locale) (lo vo : Nat) (out : Str),
      ¬ lo < layout.length → vo ≤ value.length →
      translateLoop layout value locale lo vo out =
        .result (out ++ value.drop vo) none) ∧
    (∀ (value : Str) (lo vo : Nat) (out : Str),
      vo < value.length → 128 ≤ value.getD vo 0 →
      literalStep value lo vo out = .next (lo + 1) (vo + 2)
        (out ++ [192 + value.getD vo 0 / 64, 128 + value.getD vo 0 % 64])) := by
  refine ⟨?_, ?_, ?_, ?_, ?_, ?_⟩
  · intro value lo vo out hvo hb
    have henc : utf8EncodeByteRune (value.getD vo 0) = [value.getD vo 0] := by
      unfold utf8EncodeByteRune
      rw [if_pos hb]
    unfold literalStep
    rw [if_pos (by omega), henc]
    rfl
  · intro elem tab std vo no value w h
    cases hlk : lookup tab vo value std with
    | none =>
      unfold writeLayoutValue at h
      rw [hlk] at h
      exact absurd h (by simp)
    | some r =>
      obtain ⟨no', sk, sv, mv⟩ := r
      have hsk : sk = skipSpaces value vo - vo := lookup_skipped hlk
      unfold writeLayoutValue at h
      rw [hlk] at h
      have h' : (if sv = [] then
          some (Except.error (TransError.layoutMismatch elem value))
        else
          some (Except.ok (no' + mv.length, List.replicate sk 32 ++ sv))) =
          some (Except.ok (no, w)) := h
      split at h'
      · exact absurd h' (by simp)
      · have h2 := Except.ok.inj (Option.some.inj h')
        injection h2 with h4 h5
        exact ⟨sv, by rw [← h5, hsk]⟩
  · intro vo max no value w h
    cases hnv : nextNonSpaceValue value vo max with
    | error e =>
      unfold writeNextNonSpaceValue at h
      rw [hnv] at h
      exact absurd h (by simp)
    | ok t =>
      obtain ⟨a, sk, tv⟩ := t
      have hsk : sk = skipSpaces value vo - vo := nextNonSpaceValue_skipped hnv
      unfold writeNextNonSpaceValue at h
      rw [hnv] at h
      have h' : (Except.ok (a, List.replicate sk 32 ++ tv) :
          Except TransError (Nat × Str)) = .ok (no, w) := h
      have h2 := Except.ok.inj h'
      injection h2 with h4 h5
      exact ⟨tv, by rw [← h5, hsk]⟩
  · intro value a b hab hb h
    apply List.ext_getElem
    · simp [goSlice]
      omega
    · intro i hi1 hi2
      rw [List.getElem_replicate]
      unfold goSlice
      rw [List.getElem_take, List.getElem_drop]
      have hx := h (a + i) (by omega) (by simp [goSlice] at hi1; omega)
      rw [List.getD_eq_getElem value 0 (by simp [goSlice] at hi1; omega)] at hx
      exact hx.symm
  · intro layout value locale lo vo out h hv
    exact translateLoop_done h hv
  · intro value lo vo out hvo hb
    have henc : utf8EncodeByteRune (value.getD vo 0) =
        [192 + value.getD vo 0 / 64, 128 + value.getD vo 0 % 64] := by
      unfold utf8EncodeByteRune
      rw [if_neg (by omega)]
    unfold literalStep
    rw [if_pos (by omega), henc]
    rfl

theorem translate_whitespace_runs_witness :
    literalStep [32, 32] 0 0 [] = .next 1 1 ([] ++ [List.getD [32, 32] 0 0]) :=
  translate_whitespace_runs.1 [32, 32] 0 0 [] (by decide) (by decide)

/-- An empty `[5][]string` table record. -/
def tabEmpty : LocaleTable :=
  { shortDayNames := []
    longDayNames := []
    shortMonthNames := []
    longMonthNames := []
    dayPeriods := [] }

/-- Claim C8: `NewDefaultLocale` resolves a language tag by exact key in the
generated tables map: on a hit it returns the generic locale backed by that
table and carrying the tag itself; when no table exists under the exact key
it returns `ErrUnsupportedLocale` with that tag — in particular there is no
fallback: whenever no entry's key equals the tag exactly (even if a parent or
base-language key is present), the resolution step itself errors and no
locale is produced, so translation never starts. -/
theorem new_default_locale_exact :
    ∀ (tables : List (Str × LocaleTable)) (lang : Str),
      (∀ t, mapLookup tables lang = some t →
        NewDefaultLocale tables lang =
          .ok { language := lang
                longDayNames := t.longDayNames
                shortDayNames := t.shortDayNames
                longMonthNames := t.longMonthNames
                shortMonthNames := t.shortMonthNames
                dayPeriods := t.dayPeriods }) ∧
      (mapLookup tables lang = none →
        NewDefaultLocale tables lang = .error (.unsupportedLocale lang)) ∧
      ((∀ p ∈ tables, p.1 ≠ lang) →
        NewDefaultLocale tables lang = .error (.unsupportedLocale lang)) := by
  intro tables lang
  have hmiss : (∀ p ∈ tables, p.1 ≠ lang) → mapLookup tables lang = none := by
    intro h
    induction tables with
    | nil => rfl
    | cons p rest ih =>
      obtain ⟨k, t⟩ := p
      unfold mapLookup
      rw [if_neg (h (k, t) (by simp))]
      exact ih (fun q hq => h q (by simp [hq]))
  refine ⟨?_, ?_, ?_⟩
  · intro t h
    unfold NewDefaultLocale
    rw [h]
  · intro h
    unfold NewDefaultLocale
    rw [h]
  · intro h
    unfold NewDefaultLocale
    rw [hmiss h]

theorem new_default_locale_exact_witness :
    NewDefaultLocale [(ascii "es", tabEmpty)] (ascii "es-US") =
      .error (.unsupportedLocale (ascii "es-US")) :=
  (new_default_locale_exact [(ascii "es", tabEmpty)] (ascii "es-US")).2.1 (by decide)

/-- The locale-table precondition of claim C10: every table is at most as
long as its canonical counterpart (empty tables are allowed). -/
def localeBounded (locale : Locale) : Prop :=
  locale.longDayNames.length ≤ longDayNamesStd.length ∧
  locale.shortDayNames.length ≤ shortDayNamesStd.length ∧
  locale.longMonthNames.length ≤ longMonthNamesStd.length ∧
  locale.shortMonthNames.length ≤ shortMonthNamesStd.length ∧
  locale.dayPeriods.length ≤ dayPeriodsStd.length

instance (locale : Locale) : Decidable (localeBounded locale) := by
  unfold localeBounded
  exact inferInstance

theorem lookupLoop_some {val : Str} {newOffset : Nat} {stdTab : List Str} :
    ∀ (rest : List Str) (i : Nat) (sv mv : Str), i + rest.length ≤ stdTab.length →
      ∃ r, lookupLoop val newOffset stdTab rest i sv mv = some r := by
  intro rest
  induction rest with
  | nil => exact fun i sv mv _ => ⟨(sv, mv), rfl⟩
  | cons v rest ih =>
    intro i sv mv hlen
    have hi : i < stdTab.length := by simp at hlen; omega
    unfold lookupLoop
    split
    · exact ih (i + 1) sv mv (by simp at hlen; omega)
    · split
      · exact ih (i + 1) sv mv (by simp at hlen; omega)
      · split
        · cases hg : stdTab.get? i with
          | none =>
            rw [List.get?_eq_get hi] at hg
            simp at hg
          | some sv' =>
            exact ih (i + 1) _ _ (by simp at hlen; omega)
        · exact ih (i + 1) sv mv (by simp at hlen; omega)

theorem lookup_some {lookupTab stdTab : List Str} {offset : Nat} {val : Str}
    (hlen : lookupTab.length ≤ stdTab.length) :
    ∃ r, lookup lookupTab offset val stdTab = some r := by
  show ∃ r, (if skipSpaces val offset > val.length then
      some (offset, skipSpaces val offset - offset, ([] : Str), val)
    else
      match lookupLoop val (skipSpaces val offset) stdTab lookupTab 0 [] [] with
      | none => none
      | some (sv, v) =>
        some (skipSpaces val offset, skipSpaces val offset - offset, sv, v)) = some r
  split
  · exact ⟨_, rfl⟩
  · obtain ⟨r, hr⟩ := @lookupLoop_some val (skipSpaces val offset) stdTab
      lookupTab 0 [] [] (by omega)
    obtain ⟨sv, v⟩ := r
    rw [hr]
    exact ⟨_, rfl⟩

theorem literalStep_no_panic {value : Str} {lo vo : Nat} {out : Str} :
    literalStep value lo vo out ≠ .panicked := by
  unfold literalStep
  split <;> simp

theorem tokenAction_no_panic {elem : Str} {lookupTab stdTab : List Str} {lang : Str}
    {lo vo : Nat} {out value : Str} (hlen : lookupTab.length ≤ stdTab.length) :
    tokenAction elem lookupTab stdTab lang lo vo out value ≠ .panicked := by
  unfold tokenAction
  split
  · simp
  · obtain ⟨r, hr⟩ := @lookup_some lookupTab stdTab vo value hlen
    obtain ⟨no, sk, sv, mv⟩ := r
    unfold writeLayoutValue
    rw [hr]
    split
    · rename_i heq
      split at heq
      · simp_all
      · split at heq <;> simp_all
    · simp
    · simp

theorem stepUnderscore_no_panic {layout value : Str} {lo vo : Nat} {out : Str} :
    stepUnderscore layout value lo vo out ≠ .panicked := by
  unfold stepUnderscore
  split
  · simp
  · split
    · split
      · split <;> simp
      · simp
    · simp
  · split
    · split
      · split <;> simp
      · exact literalStep_no_panic
    · exact literalStep_no_panic

theorem translateStep_no_panic {layout value : Str} {locale : Locale}
    {lo vo : Nat} {out : Str} (hb : localeBounded locale) :
    translateStep layout value locale lo vo out ≠ .panicked := by
  unfold translateStep
  split
  · unfold stepJ
    split
    · split
      · exact tokenAction_no_panic hb.2.2.1
      · split
        · exact tokenAction_no_panic hb.2.2.2.1
        · exact literalStep_no_panic
    · exact literalStep_no_panic
  · split
    · unfold stepM
      split
      · split
        · exact tokenAction_no_panic hb.1
        · split
          · exact tokenAction_no_panic hb.2.1
          · exact literalStep_no_panic
      · exact literalStep_no_panic
    · split
      · unfold stepP
        split
        · exact tokenAction_no_panic hb.2.2.2.2
        · exact literalStep_no_panic
      · split
        · exact stepUnderscore_no_panic
        · exact literalStep_no_panic

theorem translateLoopAux_no_panic {layout value : Str} {locale : Locale}
    (hb : localeBounded locale) :
    ∀ (fuel lo vo : Nat) (out : Str),
      translateLoopAux fuel layout value locale lo vo out ≠ .panicked ∨
      lo < layout.length ∧ layout.length - lo > fuel := by
  intro fuel
  induction fuel with
  | zero =>
    intro lo vo out
    unfold translateLoopAux
    split
    · rename_i hlt
      right
      exact ⟨hlt, by omega⟩
    · left
      split <;> simp
  | succ f ih =>
    intro lo vo out
    unfold translateLoopAux
    split
    · rename_i hlt
      cases hs : translateStep layout value locale lo vo out with
      | panicked => exact absurd hs (translateStep_no_panic hb)
      | failed e =>
        left
        simp
      | next lo' vo' out' =>
        have hinc := translateStep_lt hs
        rcases ih lo' vo' out' with h | h
        · left
          exact h
        · right
          exact ⟨hlt, by omega⟩
    · left
      split <;> simp

/-- Claim C10: `Translate` performs no validation of locale table lengths:
whenever every locale table is at most the canonical length for its kind,
every canonical-table index used by `lookup` is in bounds and no panic is
reachable; but a `Locale` returning a table longer than the canonical one
makes `lookup` index past the canonical table's end — a concrete 8-entry
short-weekday table panics `Translate` on layout `Mon`. -/
theorem translate_table_bounds :
    (∀ (layout value : Str) (locale : Locale), localeBounded locale →
      Translate layout value locale ≠ .panicked) ∧
    Translate (ascii "Mon") (ascii "h")
      { language := ascii "xx"
        longDayNames := []
        shortDayNames :=
          [ascii "a", ascii "b", ascii "c", ascii "d",
           ascii "e", ascii "f", ascii "g", ascii "h"]
        longMonthNames := []
        shortMonthNames := []
        dayPeriods := [] } = GoResult.panicked := by
  constructor
  · intro layout value locale hb
    unfold Translate translateLoop
    rcases translateLoopAux_no_panic hb (layout.length - 0) 0 0 [] with h | h
    · exact h
    · omega
  · decide

theorem translate_table_bounds_witness :
    Translate (ascii "Mon") (ascii "lun") locTest ≠ GoResult.panicked :=
  translate_table_bounds.1 (ascii "Mon") (ascii "lun") locTest (by decide)

/-- The candidate-table loop of `lookup`, generalized over the string
predicate used in the `strings.EqualFold` test (lunes.go line 345).  The
selection logic — longest match wins, earlier index on ties, canonical entry
taken at the matched index — does not depend on which predicate is used, so
it is characterized here for every `f`; the embedded loop `lookupLoop` is
the instance at the embedded `equalFold` (see `lookupLoop_eq_gen`), and the
program's loop is the instance at the full Unicode `strings.EqualFold`. -/
def lookupLoopGen (f : Str → Str → Bool) (val : Str) (newOffset : Nat)
    (stdTab : List Str) : List Str → Nat → Str → Str → Option (Str × Str)
  | [], _, stdValue, value => some (stdValue, value)
  | v :: rest, i, stdValue, value =>
    if stdValue ≠ [] ∧ v.length ≤ value.length then
      lookupLoopGen f val newOffset stdTab rest (i + 1) stdValue value
    else if newOffset + v.length > val.length then
      lookupLoopGen f val newOffset stdTab rest (i + 1) stdValue value
    else
      if (goSlice val newOffset (newOffset + v.length)).length = v.length ∧
          f (goSlice val newOffset (newOffset + v.length)) v then
        match stdTab.get? i with
        | none => none
        | some sv =>
          lookupLoopGen f val newOffset stdTab rest (i + 1) sv
            (goSlice val newOffset (newOffset + v.length))
      else lookupLoopGen f val newOffset stdTab rest (i + 1) stdValue value

/-- `lookup` generalized over the match predicate, exactly as
`lookupLoopGen` generalizes `lookupLoop`. -/
def lookupGen (f : Str → Str → Bool) (lookupTab : List Str) (offset : Nat)
    (val : Str) (stdTab : List Str) : Option (Nat × Nat × Str × Str) :=
  let newOffset := skipSpaces val offset
  let skipped := newOffset - offset
  if newOffset > val.length then some (offset, skipped, [], val)
  else
    match lookupLoopGen f val newOffset stdTab lookupTab 0 [] [] with
    | none => none
    | some (sv, v) => some (newOffset, skipped, sv, v)

theorem lookupLoop_eq_gen (val : Str) (p : Nat) (stdTab : List Str) :
    ∀ (rest : List Str) (i : Nat) (sv mv : Str),
      lookupLoop val p stdTab rest i sv mv =
        lookupLoopGen equalFold val p stdTab rest i sv mv := by
  intro rest
  induction rest with
  | nil => intro i sv mv; rfl
  | cons v rest ih =>
    intro i sv mv
    unfold lookupLoop lookupLoopGen
    by_cases h1 : sv ≠ [] ∧ v.length ≤ mv.length
    · rw [if_pos h1, if_pos h1]
      exact ih (i + 1) sv mv
    · rw [if_neg h1, if_neg h1]
      by_cases h2 : p + v.length > val.length
      · rw [if_pos h2, if_pos h2]
        exact ih (i + 1) sv mv
      · rw [if_neg h2, if_neg h2]
        by_cases h3 : (goSlice val p (p + v.length)).length = v.length ∧
            equalFold (goSlice val p (p + v.length)) v = true
        · rw [if_pos h3, if_pos h3]
          cases stdTab.get? i with
          | none => rfl
          | some sv' => exact ih (i + 1) sv' _
        · rw [if_neg h3, if_neg h3]
          exact ih (i + 1) sv mv

theorem lookup_eq_gen (lookupTab : List Str) (offset : Nat) (val : Str)
    (stdTab : List Str) :
    lookup lookupTab offset val stdTab =
      lookupGen equalFold lookupTab offset val stdTab := by
  have hL : lookup lookupTab offset val stdTab =
      (if skipSpaces val offset > val.length then
        some (offset, skipSpaces val offset - offset, ([] : Str), val)
      else
        match lookupLoop val (skipSpaces val offset) stdTab lookupTab 0 [] [] with
        | none => none
        | some (sv, v) =>
          some (skipSpaces val offset, skipSpaces val offset - offset, sv, v)) := rfl
  have hR : lookupGen equalFold lookupTab offset val stdTab =
      (if skipSpaces val offset > val.length then
        some (offset, skipSpaces val offset - offset, ([] : Str), val)
      else
        match lookupLoopGen equalFold val (skipSpaces val offset) stdTab
            lookupTab 0 [] [] with
        | none => none
        | some (sv, v) =>
          some (skipSpaces val offset, skipSpaces val offset - offset, sv, v)) := rfl
  rw [hL, hR, lookupLoop_eq_gen]

/-- Entry `v` matches the value at position `pos` under match predicate `f`:
the slice of `v`'s length fits and `f` accepts it (the program's predicate
is `strings.EqualFold` on that slice and `v`). -/
def entryMatches (f : Str → Str → Bool) (val : Str) (pos : Nat) (v : Str) : Prop :=
  pos + v.length ≤ val.length ∧
  f (goSlice val pos (pos + v.length)) v = true

instance (f : Str → Str → Bool) (val : Str) (pos : Nat) (v : Str) :
    Decidable (entryMatches f val pos v) := by
  unfold entryMatches
  exact inferInstance

/-- The result characterization of the `lookup` table scan under match
predicate `f`, considering the first `bound` entries: either no entry
matches and the reported match is empty, or the result is the entry at some
index `k` that matches, together with its canonical counterpart at the same
index, such that every matching index has length at most `k`'s and every
earlier matching index is strictly shorter (so among longest matches the
earliest table index wins). -/
def lookupInv (f : Str → Str → Bool) (val : Str) (p : Nat)
    (full stdTab : List Str) (bound : Nat) (sv mv : Str) : Prop :=
  (sv = [] ∧ mv = [] ∧ ∀ j, j < bound → ¬ entryMatches f val p (full.getD j [])) ∨
  (∃ k, k < bound ∧ entryMatches f val p (full.getD k []) ∧
    sv = stdTab.getD k [] ∧
    mv = goSlice val p (p + (full.getD k []).length) ∧
    mv.length = (full.getD k []).length ∧
    (∀ j, j < bound → entryMatches f val p (full.getD j []) →
      (full.getD j []).length ≤ (full.getD k []).length) ∧
    (∀ j, j < k → entryMatches f val p (full.getD j []) →
      (full.getD j []).length < (full.getD k []).length))

instance (f : Str → Str → Bool) (val : Str) (p : Nat) (full stdTab : List Str)
    (bound : Nat) (sv mv : Str) :
    Decidable (lookupInv f val p full stdTab bound sv mv) := by
  unfold lookupInv entryMatches
  exact inferInstance

theorem goSlice_length (s : Str) (a b : Nat) :
    (goSlice s a b).length = min (b - a) (s.length - a) := by
  simp [goSlice]

theorem lookupLoopGen_inv (f : Str → Str → Bool) (val : Str) (p : Nat)
    (stdTab full : List Str)
    (hstd : ∀ e ∈ stdTab, e ≠ []) (hful : full.length = stdTab.length) :
    ∀ (rest : List Str) (i : Nat) (sv mv : Str),
      i + rest.length = full.length → rest = full.drop i →
      lookupInv f val p full stdTab i sv mv →
      ∃ sv' mv', lookupLoopGen f val p stdTab rest i sv mv = some (sv', mv') ∧
        lookupInv f val p full stdTab full.length sv' mv' := by
  have hstdne : ∀ k, k < stdTab.length → stdTab.getD k [] ≠ [] := by
    intro k hk
    rw [List.getD_eq_getElem stdTab [] hk]
    exact hstd _ (List.getElem_mem hk)
  intro rest
  induction rest with
  | nil =>
    intro i sv mv hlen hdrop hinv
    have hieq : i = full.length := by simpa using hlen
    subst hieq
    exact ⟨sv, mv, rfl, hinv⟩
  | cons v rest' ih =>
    intro i sv mv hlen hdrop hinv
    have hi : i < full.length := by simp at hlen; omega
    have hcons : v :: rest' = full.getD i [] :: full.drop (i + 1) := by
      rw [List.getD_eq_getElem full [] hi, ← List.drop_eq_getElem_cons hi]
      exact hdrop
    have hv : v = full.getD i [] := (List.cons.inj hcons).1
    have hrest : rest' = full.drop (i + 1) := (List.cons.inj hcons).2
    have histd : i < stdTab.length := by omega
    unfold lookupLoopGen
    split
    · rename_i hskip
      apply ih (i + 1) sv mv (by simp at hlen ⊢; omega) hrest
      rcases hinv with ⟨hsv, _, _⟩ | ⟨k, hk, hm, hsv, hmv, hmvlen, hmax, hstrict⟩
      · exact absurd hsv hskip.1
      · refine Or.inr ⟨k, by omega, hm, hsv, hmv, hmvlen, ?_, hstrict⟩
        intro j hj hmj
        rcases Nat.lt_or_ge j i with hji | hji
        · exact hmax j hji hmj
        · have hje : j = i := by omega
          subst hje
          rw [← hv]
          calc v.length ≤ mv.length := hskip.2
            _ = (full.getD k []).length := hmvlen
    · split
      · rename_i hskip hend
        have hnom : ¬ entryMatches f val p (full.getD i []) := by
          rw [← hv]
          rintro ⟨hle, -⟩
          omega
        apply ih (i + 1) sv mv (by simp at hlen ⊢; omega) hrest
        rcases hinv with ⟨hsv, hmv, hnone⟩ | ⟨k, hk, hm, hsv, hmv, hmvlen, hmax, hstrict⟩
        · refine Or.inl ⟨hsv, hmv, ?_⟩
          intro j hj
          rcases Nat.lt_or_ge j i with hji | hji
          · exact hnone j hji
          · have hje : j = i := by omega
            subst hje
            exact hnom
        · refine Or.inr ⟨k, by omega, hm, hsv, hmv, hmvlen, ?_, hstrict⟩
          intro j hj hmj
          rcases Nat.lt_or_ge j i with hji | hji
          · exact hmax j hji hmj
          · have hje : j = i := by omega
            subst hje
            exact absurd hmj hnom
      · rename_i hskip hend
        have hlenv : (goSlice val p (p + v.length)).length = v.length := by
          rw [goSlice_length]
          omega
        split
        · rename_i hmatch
          have hem : entryMatches f val p (full.getD i []) := by
            rw [← hv]
            exact ⟨by omega, hmatch.2⟩
          cases hg : stdTab.get? i with
          | none =>
            rw [List.get?_eq_get histd] at hg
            simp at hg
          | some sv' =>
            have hsv' : sv' = stdTab.getD i [] := by
              rw [List.get?_eq_get histd] at hg
              rw [List.getD_eq_getElem stdTab [] histd]
              exact (Option.some.inj hg).symm
            have hlonger : ∀ j, j < i → entryMatches f val p (full.getD j []) →
                (full.getD j []).length < (full.getD i []).length := by
              intro j hj hmj
              rcases hinv with ⟨hsv, hmv, hnone⟩ | ⟨k, hk, hm, hsv, hmv, hmvlen, hmax, hstrict⟩
              · exact absurd hmj (hnone j hj)
              · have hkne : sv ≠ [] := by
                  rw [hsv]
                  exact hstdne k (by omega)
                have hvgt : mv.length < v.length := by
                  by_contra hcon
                  exact hskip ⟨hkne, by omega⟩
                have := hmax j hj hmj
                rw [← hv]
                calc (full.getD j []).length ≤ (full.getD k []).length := this
                  _ = mv.length := hmvlen.symm
                  _ < v.length := hvgt
            apply ih (i + 1) sv' (goSlice val p (p + v.length))
              (by simp at hlen ⊢; omega) hrest
            refine Or.inr ⟨i, by omega, hem, hsv', by rw [hv], by rw [hlenv, hv], ?_, hlonger⟩
            intro j hj hmj
            rcases Nat.lt_or_ge j i with hji | hji
            · exact Nat.le_of_lt (hlonger j hji hmj)
            · have hje : j = i := by omega
              subst hje
              exact Nat.le_refl _
        · rename_i hmatch
          have hnom : ¬ entryMatches f val p (full.getD i []) := by
            rw [← hv]
            rintro ⟨hle, heqf⟩
            exact hmatch ⟨hlenv, heqf⟩
          apply ih (i + 1) sv mv (by simp at hlen ⊢; omega) hrest
          rcases hinv with ⟨hsv, hmv, hnone⟩ | ⟨k, hk, hm, hsv, hmv, hmvlen, hmax, hstrict⟩
          · refine Or.inl ⟨hsv, hmv, ?_⟩
            intro j hj
            rcases Nat.lt_or_ge j i with hji | hji
            · exact hnone j hji
            · have hje : j = i := by omega
              subst hje
              exact hnom
          · refine Or.inr ⟨k, by omega, hm, hsv, hmv, hmvlen, ?_, hstrict⟩
            intro j hj hmj
            rcases Nat.lt_or_ge j i with hji | hji
            · exact hmax j hji hmj
            · have hje : j = i := by omega
              subst hje
              exact absurd hmj hnom

/-- Claim C2: for candidate and canonical tables of equal cardinality (the
canonical entries nonempty, as all five canonical tables are) and any value
and in-range offset, the `lookup` scan skips leading whitespace, reports the
skipped offset and count, and returns the longest matching candidate entry
together with the canonical entry at the same table index, earlier index
winning ties (a found match is replaced only by a strictly longer one); when
no entry matches the match is empty.  The selection logic is independent of
the fold predicate, so the first conjunct characterizes `lookupGen f` for
*every* match predicate `f` — in particular for the program's full Unicode
`strings.EqualFold` — via `lookupInv`; the second conjunct states that the
embedded `lookup` is the instance at the embedded `equalFold`. -/
theorem lookup_longest_match :
    (∀ (f : Str → Str → Bool) (lookupTab stdTab : List Str) (offset : Nat) (val : Str),
      lookupTab.length = stdTab.length →
      (∀ e ∈ stdTab, e ≠ []) →
      offset ≤ val.length →
      ∃ sv mv : Str,
        lookupGen f lookupTab offset val stdTab =
          some (skipSpaces val offset, skipSpaces val offset - offset, sv, mv) ∧
        lookupInv f val (skipSpaces val offset) lookupTab stdTab lookupTab.length sv mv) ∧
    (∀ (lookupTab stdTab : List Str) (offset : Nat) (val : Str),
      lookup lookupTab offset val stdTab =
        lookupGen equalFold lookupTab offset val stdTab) := by
  constructor
  · intro f lookupTab stdTab offset val hlen hstd hoff
    have hple : skipSpaces val offset ≤ val.length := skipSpaces_le val offset hoff
    obtain ⟨sv, mv, hloop, hinv⟩ :=
      lookupLoopGen_inv f val (skipSpaces val offset) stdTab lookupTab hstd hlen
        lookupTab 0 [] [] (by simp) (by simp)
        (Or.inl ⟨rfl, rfl, by omega⟩)
    refine ⟨sv, mv, ?_, hinv⟩
    show (if skipSpaces val offset > val.length then
        some (offset, skipSpaces val offset - offset, ([] : Str), val)
      else
        match lookupLoopGen f val (skipSpaces val offset) stdTab lookupTab 0 [] [] with
        | none => none
        | some (sv, v) =>
          some (skipSpaces val offset, skipSpaces val offset - offset, sv, v)) = _
    rw [if_neg (by omega), hloop]
  · intro lookupTab stdTab offset val
    exact lookup_eq_gen lookupTab offset val stdTab

theorem lookup_longest_match_witness :
    ∃ sv mv : Str,
      lookupGen equalFold [ascii "ma", ascii "mar"] 0 (ascii " mars")
          [ascii "X", ascii "Y"] =
        some (skipSpaces (ascii " mars") 0, skipSpaces (ascii " mars") 0 - 0, sv, mv) ∧
      lookupInv equalFold (ascii " mars") (skipSpaces (ascii " mars") 0)
        [ascii "ma", ascii "mar"] [ascii "X", ascii "Y"] 2 sv mv :=
  lookup_longest_match.1 equalFold [ascii "ma", ascii "mar"] [ascii "X", ascii "Y"] 0
    (ascii " mars") (by decide) (by decide) (by decide)

/-- Two bytes are equal up to ASCII letter case: equal, or an upper/lower
pair of the same ASCII letter. -/
def asciiCaseEqByte (a b : Nat) : Bool :=
  decide (a = b ∨ (65 ≤ a ∧ a ≤ 90 ∧ b = a + 32) ∨ (65 ≤ b ∧ b ≤ 90 ∧ a = b + 32))

/-- Two byte strings are equal up to ASCII letter case, pointwise. -/
def asciiCaseEq : Str → Str → Bool
  | [], [] => true
  | a :: s, b :: t => asciiCaseEqByte a b && asciiCaseEq s t
  | _, _ => false

theorem asciiCaseEqByte_lt128 {a b : Nat} (h : asciiCaseEqByte a b = true) :
    a = b ∨ (a < 128 ∧ b < 128) := by
  simp only [asciiCaseEqByte, decide_eq_true_eq] at h
  omega

theorem asciiCaseEqByte_space {a b : Nat} (h : asciiCaseEqByte a b = true) :
    isSpaceByte a = isSpaceByte b := by
  simp only [asciiCaseEqByte, decide_eq_true_eq] at h
  rcases h with rfl | h | h
  · rfl
  · have ha : isSpaceByte a = false := by
      simp [isSpaceByte]
      omega
    have hb : isSpaceByte b = false := by
      simp [isSpaceByte]
      omega
    rw [ha, hb]
  · have ha : isSpaceByte a = false := by
      simp [isSpaceByte]
      omega
    have hb : isSpaceByte b = false := by
      simp [isSpaceByte]
      omega
    rw [ha, hb]

theorem asciiCaseEq_length : ∀ {s t : Str}, asciiCaseEq s t = true → s.length = t.length := by
  intro s
  induction s with
  | nil =>
    intro t h
    cases t with
    | nil => rfl
    | cons b t => simp [asciiCaseEq] at h
  | cons a s ih =>
    intro t h
    cases t with
    | nil => simp [asciiCaseEq] at h
    | cons b t =>
      simp only [asciiCaseEq, Bool.and_eq_true] at h
      simp [ih h.2]

theorem asciiCaseEq_getD : ∀ {s t : Str}, asciiCaseEq s t = true →
    ∀ i, asciiCaseEqByte (s.getD i 0) (t.getD i 0) = true := by
  intro s
  induction s with
  | nil =>
    intro t h i
    cases t with
    | nil => simp [asciiCaseEqByte]
    | cons b t => simp [asciiCaseEq] at h
  | cons a s ih =>
    intro t h i
    cases t with
    | nil => simp [asciiCaseEq] at h
    | cons b t =>
      simp only [asciiCaseEq, Bool.and_eq_true] at h
      cases i with
      | zero => exact h.1
      | succ i => exact ih h.2 i

theorem asciiCaseEq_drop : ∀ (n : Nat) {s t : Str}, asciiCaseEq s t = true →
    asciiCaseEq (s.drop n) (t.drop n) = true := by
  intro n
  induction n with
  | zero => intro s t h; simpa using h
  | succ n ih =>
    intro s t h
    cases s with
    | nil =>
      cases t with
      | nil => exact h
      | cons b t => simp [asciiCaseEq] at h
    | cons a s =>
      cases t with
      | nil => simp [asciiCaseEq] at h
      | cons b t =>
        simp only [asciiCaseEq, Bool.and_eq_true] at h
        exact ih h.2

theorem asciiCaseEq_take : ∀ (n : Nat) {s t : Str}, asciiCaseEq s t = true →
    asciiCaseEq (s.take n) (t.take n) = true := by
  intro n
  induction n with
  | zero => intro s t h; rfl
  | succ n ih =>
    intro s t h
    cases s with
    | nil =>
      cases t with
      | nil => exact h
      | cons b t => simp [asciiCaseEq] at h
    | cons a s =>
      cases t with
      | nil => simp [asciiCaseEq] at h
      | cons b t =>
        simp only [asciiCaseEq, Bool.and_eq_true] at h
        simp only [List.take_succ_cons, asciiCaseEq, Bool.and_eq_true]
        exact ⟨h.1, ih h.2⟩

theorem asciiCaseEq_goSlice {v v' : Str} (h : asciiCaseEq v v' = true) (a b : Nat) :
    asciiCaseEq (goSlice v a b) (goSlice v' a b) = true := by
  unfold goSlice
  exact asciiCaseEq_take _ (asciiCaseEq_drop _ h)

theorem contByte_false_of_lt {x : Nat} (h : x < 128) : contByte x = false := by
  simp [contByte]
  omega

theorem decode_lt128 {b : Nat} (hb : b < 128) (s : Str) :
    utf8DecodeNext (b :: s) = some (b, s) := by
  simp only [utf8DecodeNext]
  rw [if_pos hb]

theorem decode2_ok {a b2 : Nat} (s₂ : Str) (h2 : 194 ≤ a ∧ a ≤ 223)
    (hcont : contByte b2 = true) :
    utf8DecodeNext (a :: b2 :: s₂) = some ((a - 192) * 64 + (b2 - 128), s₂) := by
  simp only [utf8DecodeNext]
  rw [if_neg (by omega), if_pos h2, if_pos hcont]

theorem decode2_bad {a b2 : Nat} (s₂ : Str) (h2 : 194 ≤ a ∧ a ≤ 223)
    (hcont : contByte b2 = false) :
    utf8DecodeNext (a :: b2 :: s₂) = some (65533, b2 :: s₂) := by
  simp only [utf8DecodeNext]
  rw [if_neg (by omega), if_pos h2, if_neg (by simp [hcont])]

theorem decode2_nil {a : Nat} (h2 : 194 ≤ a ∧ a ≤ 223) :
    utf8DecodeNext [a] = some (65533, []) := by
  simp only [utf8DecodeNext]
  rw [if_neg (by omega), if_pos h2]

/-- The validity condition of a 3-byte UTF-8 sequence led by `a`. -/
def cond3 (a b2 b3 : Nat) : Prop :=
  (if a = 224 then 160 ≤ b2 ∧ b2 ≤ 191
    else if a = 237 then 128 ≤ b2 ∧ b2 ≤ 159
    else contByte b2 = true) ∧ contByte b3 = true

instance (a b2 b3 : Nat) : Decidable (cond3 a b2 b3) := by
  unfold cond3
  exact inferInstance

theorem cond3_false_left {a b2 b3 : Nat} (hb2 : b2 < 128) : ¬ cond3 a b2 b3 := by
  rintro ⟨hc, -⟩
  split_ifs at hc
  · omega
  · omega
  · simp [contByte] at hc
    omega

theorem cond3_false_right {a b2 b3 : Nat} (hb3 : b3 < 128) : ¬ cond3 a b2 b3 := by
  rintro ⟨-, hc⟩
  simp [contByte] at hc
  omega

theorem decode3_ok {a b2 b3 : Nat} (s₃ : Str) (h3 : 224 ≤ a ∧ a ≤ 239)
    (hn2 : ¬(194 ≤ a ∧ a ≤ 223)) (hcond : cond3 a b2 b3) :
    utf8DecodeNext (a :: b2 :: b3 :: s₃) =
      some ((a - 224) * 4096 + (b2 - 128) * 64 + (b3 - 128), s₃) := by
  have hc : (if a = 224 then 160 ≤ b2 ∧ b2 ≤ 191
      else if a = 237 then 128 ≤ b2 ∧ b2 ≤ 159
      else contByte b2 = true) ∧ contByte b3 = true := hcond
  simp only [utf8DecodeNext]
  rw [if_neg (by omega), if_neg hn2, if_pos h3, if_pos hc]

theorem decode3_bad {a b2 b3 : Nat} (s₃ : Str) (h3 : 224 ≤ a ∧ a ≤ 239)
    (hn2 : ¬(194 ≤ a ∧ a ≤ 223)) (hcond : ¬ cond3 a b2 b3) :
    utf8DecodeNext (a :: b2 :: b3 :: s₃) = some (65533, b2 :: b3 :: s₃) := by
  have hc : ¬((if a = 224 then 160 ≤ b2 ∧ b2 ≤ 191
      else if a = 237 then 128 ≤ b2 ∧ b2 ≤ 159
      else contByte b2 = true) ∧ contByte b3 = true) := hcond
  simp only [utf8DecodeNext]
  rw [if_neg (by omega), if_neg hn2, if_pos h3, if_neg hc]

theorem decode3_short0 {a : Nat} (h3 : 224 ≤ a ∧ a ≤ 239)
    (hn2 : ¬(194 ≤ a ∧ a ≤ 223)) :
    utf8DecodeNext [a] = some (65533, []) := by
  simp only [utf8DecodeNext]
  rw [if_neg (by omega), if_neg hn2, if_pos h3]

theorem decode3_short1 {a b2 : Nat} (h3 : 224 ≤ a ∧ a ≤ 239)
    (hn2 : ¬(194 ≤ a ∧ a ≤ 223)) :
    utf8DecodeNext [a, b2] = some (65533, [b2]) := by
  simp only [utf8DecodeNext]
  rw [if_neg (by omega), if_neg hn2, if_pos h3]

/-- The validity condition of a 4-byte UTF-8 sequence led by `a`. -/
def cond4 (a b2 b3 b4 : Nat) : Prop :=
  (if a = 240 then 144 ≤ b2 ∧ b2 ≤ 191
    else if a = 244 then 128 ≤ b2 ∧ b2 ≤ 143
    else contByte b2 = true) ∧ contByte b3 = true ∧ contByte b4 = true

instance (a b2 b3 b4 : Nat) : Decidable (cond4 a b2 b3 b4) := by
  unfold cond4
  exact inferInstance

theorem cond4_false_left {a b2 b3 b4 : Nat} (hb2 : b2 < 128) : ¬ cond4 a b2 b3 b4 := by
  rintro ⟨hc, -, -⟩
  split_ifs at hc
  · omega
  · omega
  · simp [contByte] at hc
    omega

theorem cond4_false_mid {a b2 b3 b4 : Nat} (hb3 : b3 < 128) : ¬ cond4 a b2 b3 b4 := by
  rintro ⟨-, hc, -⟩
  simp [contByte] at hc
  omega

theorem cond4_false_right {a b2 b3 b4 : Nat} (hb4 : b4 < 128) : ¬ cond4 a b2 b3 b4 := by
  rintro ⟨-, -, hc⟩
  simp [contByte] at hc
  omega

theorem decode4_ok {a b2 b3 b4 : Nat} (s₄ : Str) (h4 : 240 ≤ a ∧ a ≤ 244)
    (hn2 : ¬(194 ≤ a ∧ a ≤ 223)) (hn3 : ¬(224 ≤ a ∧ a ≤ 239))
    (hcond : cond4 a b2 b3 b4) :
    utf8DecodeNext (a :: b2 :: b3 :: b4 :: s₄) =
      some ((a - 240) * 262144 + (b2 - 128) * 4096 + (b3 - 128) * 64 + (b4 - 128), s₄) := by
  have hc : (if a = 240 then 144 ≤ b2 ∧ b2 ≤ 191
      else if a = 244 then 128 ≤ b2 ∧ b2 ≤ 143
      else contByte b2 = true) ∧ contByte b3 = true ∧ contByte b4 = true := hcond
  simp only [utf8DecodeNext]
  rw [if_neg (by omega), if_neg hn2, if_neg hn3, if_pos h4, if_pos hc]

theorem decode4_bad {a b2 b3 b4 : Nat} (s₄ : Str) (h4 : 240 ≤ a ∧ a ≤ 244)
    (hn2 : ¬(194 ≤ a ∧ a ≤ 223)) (hn3 : ¬(224 ≤ a ∧ a ≤ 239))
    (hcond : ¬ cond4 a b2 b3 b4) :
    utf8DecodeNext (a :: b2 :: b3 :: b4 :: s₄) = some (65533, b2 :: b3 :: b4 :: s₄) := by
  have hc : ¬((if a = 240 then 144 ≤ b2 ∧ b2 ≤ 191
      else if a = 244 then 128 ≤ b2 ∧ b2 ≤ 143
      else contByte b2 = true) ∧ contByte b3 = true ∧ contByte b4 = true) := hcond
  simp only [utf8DecodeNext]
  rw [if_neg (by omega), if_neg hn2, if_neg hn3, if_pos h4, if_neg hc]

theorem decode4_short0 {a : Nat} (h4 : 240 ≤ a ∧ a ≤ 244)
    (hn2 : ¬(194 ≤ a ∧ a ≤ 223)) (hn3 : ¬(224 ≤ a ∧ a ≤ 239)) :
    utf8DecodeNext [a] = some (65533, []) := by
  simp only [utf8DecodeNext]
  rw [if_neg (by omega), if_neg hn2, if_neg hn3, if_pos h4]

theorem decode4_short1 {a b2 : Nat} (h4 : 240 ≤ a ∧ a ≤ 244)
    (hn2 : ¬(194 ≤ a ∧ a ≤ 223)) (hn3 : ¬(224 ≤ a ∧ a ≤ 239)) :
    utf8DecodeNext [a, b2] = some (65533, [b2]) := by
  simp only [utf8DecodeNext]
  rw [if_neg (by omega), if_neg hn2, if_neg hn3, if_pos h4]

theorem decode4_short2 {a b2 b3 : Nat} (h4 : 240 ≤ a ∧ a ≤ 244)
    (hn2 : ¬(194 ≤ a ∧ a ≤ 223)) (hn3 : ¬(224 ≤ a ∧ a ≤ 239)) :
    utf8DecodeNext [a, b2, b3] = some (65533, [b2, b3]) := by
  simp only [utf8DecodeNext]
  rw [if_neg (by omega), if_neg hn2, if_neg hn3, if_pos h4]

theorem decode_badlead {a : Nat} (s₁ : Str) (ha : 128 ≤ a)
    (hn2 : ¬(194 ≤ a ∧ a ≤ 223)) (hn3 : ¬(224 ≤ a ∧ a ≤ 239))
    (hn4 : ¬(240 ≤ a ∧ a ≤ 244)) :
    utf8DecodeNext (a :: s₁) = some (65533, s₁) := by
  simp only [utf8DecodeNext]
  rw [if_neg (by omega), if_neg hn2, if_neg hn3, if_neg hn4]

/-- Decoding two byte strings with the same non-ASCII lead byte and
ASCII-case-equivalent tails yields the same rune and case-equivalent rests
(case variation can only occur on ASCII bytes, which never participate in a
valid multi-byte sequence). -/
theorem utf8DecodeNext_cont_eq (a : Nat) (ha : 128 ≤ a) :
    ∀ {s₁ t₁ : Str}, asciiCaseEq s₁ t₁ = true →
      ∃ r rest rest', utf8DecodeNext (a :: s₁) = some (r, rest) ∧
        utf8DecodeNext (a :: t₁) = some (r, rest') ∧ asciiCaseEq rest rest' = true := by
  intro s₁ t₁ h
  by_cases h2 : 194 ≤ a ∧ a ≤ 223
  · cases s₁ with
    | nil =>
      cases t₁ with
      | nil => exact ⟨65533, [], [], decode2_nil h2, decode2_nil h2, rfl⟩
      | cons c2 t₂ => simp [asciiCaseEq] at h
    | cons b2 s₂ =>
      cases t₁ with
      | nil => simp [asciiCaseEq] at h
      | cons c2 t₂ =>
        have hp : asciiCaseEqByte b2 c2 = true ∧ asciiCaseEq s₂ t₂ = true := by
          simpa only [asciiCaseEq, Bool.and_eq_true] using h
        rcases asciiCaseEqByte_lt128 hp.1 with heq | ⟨hx, hy⟩
        · subst heq
          by_cases hcont : contByte b2 = true
          · exact ⟨(a - 192) * 64 + (b2 - 128), s₂, t₂,
              decode2_ok s₂ h2 hcont, decode2_ok t₂ h2 hcont, hp.2⟩
          · have hcf : contByte b2 = false := by
              cases hg : contByte b2
              · rfl
              · exact absurd hg hcont
            exact ⟨65533, b2 :: s₂, b2 :: t₂,
              decode2_bad s₂ h2 hcf, decode2_bad t₂ h2 hcf, h⟩
        · exact ⟨65533, b2 :: s₂, c2 :: t₂,
            decode2_bad s₂ h2 (contByte_false_of_lt hx),
            decode2_bad t₂ h2 (contByte_false_of_lt hy), h⟩
  · by_cases h3 : 224 ≤ a ∧ a ≤ 239
    · cases s₁ with
      | nil =>
        cases t₁ with
        | nil => exact ⟨65533, [], [], decode3_short0 h3 h2, decode3_short0 h3 h2, rfl⟩
        | cons c2 t₂ => simp [asciiCaseEq] at h
      | cons b2 s₂ =>
        cases t₁ with
        | nil => simp [asciiCaseEq] at h
        | cons c2 t₂ =>
          have hp : asciiCaseEqByte b2 c2 = true ∧ asciiCaseEq s₂ t₂ = true := by
            simpa only [asciiCaseEq, Bool.and_eq_true] using h
          cases s₂ with
          | nil =>
            cases t₂ with
            | nil =>
              refine ⟨65533, [b2], [c2], decode3_short1 h3 h2, decode3_short1 h3 h2, ?_⟩
              simp only [asciiCaseEq, Bool.and_eq_true]
              exact ⟨hp.1, trivial⟩
            | cons c3 t₃ => simp [asciiCaseEq] at hp
          | cons b3 s₃ =>
            cases t₂ with
            | nil => simp [asciiCaseEq] at hp
            | cons c3 t₃ =>
              have hp3 : asciiCaseEqByte b3 c3 = true ∧ asciiCaseEq s₃ t₃ = true := by
                simpa only [asciiCaseEq, Bool.and_eq_true] using hp.2
              rcases asciiCaseEqByte_lt128 hp.1 with heq2 | ⟨hx2, hy2⟩
              · subst heq2
                rcases asciiCaseEqByte_lt128 hp3.1 with heq3 | ⟨hx3, hy3⟩
                · subst heq3
                  by_cases hcond : cond3 a b2 b3
                  · exact ⟨(a - 224) * 4096 + (b2 - 128) * 64 + (b3 - 128), s₃, t₃,
                      decode3_ok s₃ h3 h2 hcond, decode3_ok t₃ h3 h2 hcond, hp3.2⟩
                  · exact ⟨65533, b2 :: b3 :: s₃, b2 :: b3 :: t₃,
                      decode3_bad s₃ h3 h2 hcond, decode3_bad t₃ h3 h2 hcond, h⟩
                · exact ⟨65533, b2 :: b3 :: s₃, b2 :: c3 :: t₃,
                    decode3_bad s₃ h3 h2 (cond3_false_right hx3),
                    decode3_bad t₃ h3 h2 (cond3_false_right hy3), h⟩
              · exact ⟨65533, b2 :: b3 :: s₃, c2 :: c3 :: t₃,
                  decode3_bad s₃ h3 h2 (cond3_false_left hx2),
                  decode3_bad t₃ h3 h2 (cond3_false_left hy2), h⟩
    · by_cases h4 : 240 ≤ a ∧ a ≤ 244
      · cases s₁ with
        | nil =>
          cases t₁ with
          | nil => exact ⟨65533, [], [], decode4_short0 h4 h2 h3, decode4_short0 h4 h2 h3, rfl⟩
          | cons c2 t₂ => simp [asciiCaseEq] at h
        | cons b2 s₂ =>
          cases t₁ with
          | nil => simp [asciiCaseEq] at h
          | cons c2 t₂ =>
            have hp : asciiCaseEqByte b2 c2 = true ∧ asciiCaseEq s₂ t₂ = true := by
              simpa only [asciiCaseEq, Bool.and_eq_true] using h
            cases s₂ with
            | nil =>
              cases t₂ with
              | nil =>
                refine ⟨65533, [b2], [c2], decode4_short1 h4 h2 h3, decode4_short1 h4 h2 h3, ?_⟩
                simp only [asciiCaseEq, Bool.and_eq_true]
                exact ⟨hp.1, trivial⟩
              | cons c3 t₃ => simp [asciiCaseEq] at hp
            | cons b3 s₃ =>
              cases t₂ with
              | nil => simp [asciiCaseEq] at hp
              | cons c3 t₃ =>
                have hp3 : asciiCaseEqByte b3 c3 = true ∧ asciiCaseEq s₃ t₃ = true := by
                  simpa only [asciiCaseEq, Bool.and_eq_true] using hp.2
                cases s₃ with
                | nil =>
                  cases t₃ with
                  | nil =>
                    refine ⟨65533, [b2, b3], [c2, c3],
                      decode4_short2 h4 h2 h3, decode4_short2 h4 h2 h3, ?_⟩
                    simp only [asciiCaseEq, Bool.and_eq_true]
                    exact ⟨hp.1, hp3.1, trivial⟩
                  | cons c4 t₄ => simp [asciiCaseEq] at hp3
                | cons b4 s₄ =>
                  cases t₃ with
                  | nil => simp [asciiCaseEq] at hp3
                  | cons c4 t₄ =>
                    have hp4 : asciiCaseEqByte b4 c4 = true ∧ asciiCaseEq s₄ t₄ = true := by
                      simpa only [asciiCaseEq, Bool.and_eq_true] using hp3.2
                    rcases asciiCaseEqByte_lt128 hp.1 with heq2 | ⟨hx2, hy2⟩
                    · subst heq2
                      rcases asciiCaseEqByte_lt128 hp3.1 with heq3 | ⟨hx3, hy3⟩
                      · subst heq3
                        rcases asciiCaseEqByte_lt128 hp4.1 with heq4 | ⟨hx4, hy4⟩
                        · subst heq4
                          by_cases hcond : cond4 a b2 b3 b4
                          · exact ⟨(a - 240) * 262144 + (b2 - 128) * 4096 +
                                (b3 - 128) * 64 + (b4 - 128), s₄, t₄,
                              decode4_ok s₄ h4 h2 h3 hcond, decode4_ok t₄ h4 h2 h3 hcond, hp4.2⟩
                          · exact ⟨65533, b2 :: b3 :: b4 :: s₄, b2 :: b3 :: b4 :: t₄,
                              decode4_bad s₄ h4 h2 h3 hcond, decode4_bad t₄ h4 h2 h3 hcond, h⟩
                        · exact ⟨65533, b2 :: b3 :: b4 :: s₄, b2 :: b3 :: c4 :: t₄,
                            decode4_bad s₄ h4 h2 h3 (cond4_false_right hx4),
                            decode4_bad t₄ h4 h2 h3 (cond4_false_right hy4), h⟩
                      · exact ⟨65533, b2 :: b3 :: b4 :: s₄, b2 :: c3 :: c4 :: t₄,
                          decode4_bad s₄ h4 h2 h3 (cond4_false_mid hx3),
                          decode4_bad t₄ h4 h2 h3 (cond4_false_mid hy3), h⟩
                    · exact ⟨65533, b2 :: b3 :: b4 :: s₄, c2 :: c3 :: c4 :: t₄,
                        decode4_bad s₄ h4 h2 h3 (cond4_false_left hx2),
                        decode4_bad t₄ h4 h2 h3 (cond4_false_left hy2), h⟩
      · exact ⟨65533, s₁, t₁, decode_badlead s₁ ha h2 h3 h4,
          decode_badlead t₁ ha h2 h3 h4, h⟩

/-- Decoding ASCII-case-equivalent byte strings: both empty, or both decode
to runes that are equal or an ASCII letter case pair, with case-equivalent
rests. -/
theorem utf8DecodeNext_caseEq {s s' : Str} (h : asciiCaseEq s s' = true) :
    (utf8DecodeNext s = none ∧ utf8DecodeNext s' = none) ∨
    (∃ r r' rest rest',
      utf8DecodeNext s = some (r, rest) ∧ utf8DecodeNext s' = some (r', rest') ∧
      asciiCaseEq rest rest' = true ∧
      (r = r' ∨ (65 ≤ r ∧ r ≤ 90 ∧ r' = r + 32) ∨ (65 ≤ r' ∧ r' ≤ 90 ∧ r = r' + 32))) := by
  cases s with
  | nil =>
    cases s' with
    | nil => exact Or.inl ⟨rfl, rfl⟩
    | cons b t => simp [asciiCaseEq] at h
  | cons a s₁ =>
    cases s' with
    | nil => simp [asciiCaseEq] at h
    | cons b t₁ =>
      have hp : asciiCaseEqByte a b = true ∧ asciiCaseEq s₁ t₁ = true := by
        simpa only [asciiCaseEq, Bool.and_eq_true] using h
      have hb := hp.1
      simp only [asciiCaseEqByte, decide_eq_true_eq] at hb
      rcases hb with rfl | hb | hb
      · by_cases ha : a < 128
        · exact Or.inr ⟨a, a, s₁, t₁, decode_lt128 ha s₁, decode_lt128 ha t₁,
            hp.2, Or.inl rfl⟩
        · obtain ⟨r, rest, rest', hd1, hd2, hce⟩ :=
            utf8DecodeNext_cont_eq a (by omega) hp.2
          exact Or.inr ⟨r, r, rest, rest', hd1, hd2, hce, Or.inl rfl⟩
      · exact Or.inr ⟨a, b, s₁, t₁, decode_lt128 (by omega) s₁,
          decode_lt128 (by omega) t₁, hp.2, Or.inr (Or.inl hb)⟩
      · exact Or.inr ⟨a, b, s₁, t₁, decode_lt128 (by omega) s₁,
          decode_lt128 (by omega) t₁, hp.2, Or.inr (Or.inr hb)⟩

theorem simpleFold_upper {u : Nat} (h1 : 65 ≤ u) (h2 : u ≤ 90) : simpleFold u = u + 32 := by
  unfold simpleFold
  rw [if_pos ⟨h1, h2⟩]

theorem simpleFold_lower {l : Nat} (h1 : 97 ≤ l) (h2 : l ≤ 122) : simpleFold l = l - 32 := by
  unfold simpleFold
  rw [if_neg (by omega), if_pos ⟨h1, h2⟩]

theorem foldGeneral_upper_false {u tr : Nat} (h1 : 65 ≤ u) (h2 : u ≤ 90) (h3 : 128 ≤ tr) :
    foldGeneral u tr = false := by
  unfold foldGeneral
  rw [simpleFold_upper h1 h2]
  rw [if_pos ⟨by omega, by omega⟩]
  rw [simpleFold_lower (by omega) (by omega)]
  exact decide_eq_false (by omega)

theorem foldGeneral_lower_false {u tr : Nat} (h1 : 65 ≤ u) (h2 : u ≤ 90) (h3 : 128 ≤ tr) :
    foldGeneral (u + 32) tr = false := by
  unfold foldGeneral
  rw [simpleFold_lower (by omega) (by omega)]
  have e : u + 32 - 32 = u := by omega
  rw [e]
  rw [if_pos ⟨by omega, by omega⟩]
  rw [simpleFold_upper h1 h2]
  exact decide_eq_false (by omega)

/-- `runesFoldEq` does not distinguish the two casings of an ASCII letter on
its first argument. -/
theorem runesFoldEq_pair {u : Nat} (hu1 : 65 ≤ u) (hu2 : u ≤ 90) :
    ∀ tr, runesFoldEq u tr = runesFoldEq (u + 32) tr := by
  intro tr
  rcases Nat.lt_or_ge tr 128 with htr | htr
  · by_cases h1 : tr = u
    · subst h1
      have hL : runesFoldEq tr tr = true := by
        unfold runesFoldEq
        rw [if_pos rfl]
      have hR : runesFoldEq (tr + 32) tr = true := by
        unfold runesFoldEq
        rw [if_neg (by omega)]
        rw [show (if tr < tr + 32 then tr + 32 else tr) = tr + 32 from if_pos (by omega)]
        rw [show (if tr < tr + 32 then tr else tr + 32) = tr from if_pos (by omega)]
        rw [if_pos (by omega)]
        simp only [decide_eq_true_eq]
        exact ⟨hu1, hu2, trivial⟩
      rw [hL, hR]
    · by_cases h2 : tr = u + 32
      · subst h2
        have hL : runesFoldEq u (u + 32) = true := by
          unfold runesFoldEq
          rw [if_neg (by omega)]
          rw [show (if u + 32 < u then u else u + 32) = u + 32 from if_neg (by omega)]
          rw [show (if u + 32 < u then u + 32 else u) = u from if_neg (by omega)]
          rw [if_pos (by omega)]
          simp only [decide_eq_true_eq]
          exact ⟨hu1, hu2, trivial⟩
        have hR : runesFoldEq (u + 32) (u + 32) = true := by
          unfold runesFoldEq
          rw [if_pos rfl]
        rw [hL, hR]
      · have hL : runesFoldEq u tr = false := by
          unfold runesFoldEq
          rw [if_neg (by omega)]
          rcases Nat.lt_or_ge tr u with htu | htu
          · rw [show (if tr < u then u else tr) = u from if_pos htu]
            rw [show (if tr < u then tr else u) = tr from if_pos htu]
            rw [if_pos (by omega)]
            exact decide_eq_false (by omega)
          · rw [show (if tr < u then u else tr) = tr from if_neg (by omega)]
            rw [show (if tr < u then tr else u) = u from if_neg (by omega)]
            rw [if_pos (by omega)]
            exact decide_eq_false (by omega)
        have hR : runesFoldEq (u + 32) tr = false := by
          unfold runesFoldEq
          rw [if_neg (by omega)]
          rcases Nat.lt_or_ge tr (u + 32) with htu | htu
          · rw [show (if tr < u + 32 then u + 32 else tr) = u + 32 from if_pos htu]
            rw [show (if tr < u + 32 then tr else u + 32) = tr from if_pos htu]
            rw [if_pos (by omega)]
            exact decide_eq_false (by omega)
          · rw [show (if tr < u + 32 then u + 32 else tr) = tr from if_neg (by omega)]
            rw [show (if tr < u + 32 then tr else u + 32) = u + 32 from if_neg (by omega)]
            rw [if_pos (by omega)]
            exact decide_eq_false (by omega)
        rw [hL, hR]
  · have hL : runesFoldEq u tr = false := by
      unfold runesFoldEq
      rw [if_neg (by omega)]
      rw [show (if tr < u then u else tr) = tr from if_neg (by omega)]
      rw [show (if tr < u then tr else u) = u from if_neg (by omega)]
      rw [if_neg (by omega)]
      exact foldGeneral_upper_false hu1 hu2 htr
    have hR : runesFoldEq (u + 32) tr = false := by
      unfold runesFoldEq
      rw [if_neg (by omega)]
      rw [show (if tr < u + 32 then u + 32 else tr) = tr from if_neg (by omega)]
      rw [show (if tr < u + 32 then tr else u + 32) = u + 32 from if_neg (by omega)]
      rw [if_neg (by omega)]
      exact foldGeneral_lower_false hu1 hu2 htr
    rw [hL, hR]

/-- `equalFold` is invariant under ASCII case variation of its first
argument. -/
theorem equalFold_caseEq : ∀ (s s' t : Str), asciiCaseEq s s' = true →
    equalFold s t = equalFold s' t := by
  suffices H : ∀ n s s' t, s.length ≤ n → asciiCaseEq s s' = true →
      equalFold s t = equalFold s' t by
    intro s s' t h
    exact H s.length s s' t (Nat.le_refl _) h
  intro n
  induction n with
  | zero =>
    intro s s' t hn h
    have hs : s = [] := List.length_eq_zero.mp (by omega)
    subst hs
    cases s' with
    | nil => rfl
    | cons b t' => simp [asciiCaseEq] at h
  | succ n ih =>
    intro s s' t hn h
    rw [equalFold_eq s t, equalFold_eq s' t]
    rcases utf8DecodeNext_caseEq h with ⟨h1, h2⟩ | ⟨r, r', rest, rest', h1, h2, hce, hr⟩
    · rw [h1, h2]
    · rw [h1, h2]
      cases ht : utf8DecodeNext t with
      | none => rfl
      | some q =>
        obtain ⟨tr, t'⟩ := q
        have hfold : runesFoldEq r tr = runesFoldEq r' tr := by
          rcases hr with rfl | hpair | hpair
          · rfl
          · have hx := runesFoldEq_pair hpair.1 hpair.2.1 tr
            rw [hpair.2.2]
            exact hx
          · have hx := runesFoldEq_pair hpair.1 hpair.2.1 tr
            rw [hpair.2.2]
            exact hx.symm
        show (if runesFoldEq r tr = true then equalFold rest t' else false) =
          (if runesFoldEq r' tr = true then equalFold rest' t' else false)
        rw [hfold]
        split
        · apply ih rest rest' t' ?_ hce
          have := utf8DecodeNext_length h1
          omega
        · rfl

/-- `skipSpaces` is invariant under ASCII case variation of the value. -/
theorem skipSpaces_caseEq {v v' : Str} (hvv : asciiCaseEq v v' = true) :
    ∀ offset, skipSpaces v offset = skipSpaces v' offset := by
  have hlen : v.length = v'.length := asciiCaseEq_length hvv
  suffices H : ∀ n offset, v.length - offset ≤ n →
      skipSpaces v offset = skipSpaces v' offset by
    intro offset
    exact H v.length offset (by omega)
  intro n
  induction n with
  | zero =>
    intro offset hn
    rw [skipSpaces_eq v offset, skipSpaces_eq v' offset]
    rw [if_neg (by omega), if_neg (by omega)]
  | succ n ih =>
    intro offset hn
    rw [skipSpaces_eq v offset, skipSpaces_eq v' offset]
    have hsp : isSpaceByte (v.getD offset 0) = isSpaceByte (v'.getD offset 0) :=
      asciiCaseEqByte_space (asciiCaseEq_getD hvv offset)
    by_cases hc : offset < v.length ∧ isSpaceByte (v.getD offset 0) = true
    · rw [if_pos hc, if_pos ⟨by omega, by rw [← hsp]; exact hc.2⟩]
      exact ih (offset + 1) (by omega)
    · rw [if_neg hc, if_neg (by
        rintro ⟨hx, hy⟩
        exact hc ⟨by omega, by rw [hsp]; exact hy⟩)]

theorem lookupLoop_caseEq {val val' : Str} (hvv : asciiCaseEq val val' = true)
    (p : Nat) (stdTab : List Str) :
    ∀ (rest : List Str) (i : Nat) (sv mv mv' : Str), asciiCaseEq mv mv' = true →
      (lookupLoop val p stdTab rest i sv mv = none ∧
        lookupLoop val' p stdTab rest i sv mv' = none) ∨
      (∃ sv₀ m m', lookupLoop val p stdTab rest i sv mv = some (sv₀, m) ∧
        lookupLoop val' p stdTab rest i sv mv' = some (sv₀, m') ∧
        asciiCaseEq m m' = true) := by
  have hvallen : val.length = val'.length := asciiCaseEq_length hvv
  intro rest
  induction rest with
  | nil =>
    intro i sv mv mv' hm
    exact Or.inr ⟨sv, mv, mv', rfl, rfl, hm⟩
  | cons v rest ih =>
    intro i sv mv mv' hm
    have hmlen : mv.length = mv'.length := asciiCaseEq_length hm
    have hcand : asciiCaseEq (goSlice val p (p + v.length))
        (goSlice val' p (p + v.length)) = true := asciiCaseEq_goSlice hvv p (p + v.length)
    have hcandlen : (goSlice val p (p + v.length)).length =
        (goSlice val' p (p + v.length)).length := asciiCaseEq_length hcand
    have hcandfold : equalFold (goSlice val p (p + v.length)) v =
        equalFold (goSlice val' p (p + v.length)) v := equalFold_caseEq _ _ v hcand
    unfold lookupLoop
    by_cases hskip : sv ≠ [] ∧ v.length ≤ mv.length
    · have hskip' : sv ≠ [] ∧ v.length ≤ mv'.length :=
        ⟨hskip.1, by rw [← hmlen]; exact hskip.2⟩
      rw [if_pos hskip, if_pos hskip']
      exact ih (i + 1) sv mv mv' hm
    · have hskip' : ¬(sv ≠ [] ∧ v.length ≤ mv'.length) := by
        rintro ⟨hx, hy⟩
        exact hskip ⟨hx, by rw [hmlen]; exact hy⟩
      rw [if_neg hskip, if_neg hskip']
      by_cases hend : p + v.length > val.length
      · have hend' : p + v.length > val'.length := by omega
        rw [if_pos hend, if_pos hend']
        exact ih (i + 1) sv mv mv' hm
      · have hend' : ¬ p + v.length > val'.length := by omega
        rw [if_neg hend, if_neg hend']
        by_cases hc : (goSlice val p (p + v.length)).length = v.length ∧
            equalFold (goSlice val p (p + v.length)) v = true
        · have hc' : (goSlice val' p (p + v.length)).length = v.length ∧
              equalFold (goSlice val' p (p + v.length)) v = true :=
            ⟨by rw [← hcandlen]; exact hc.1, by rw [← hcandfold]; exact hc.2⟩
          rw [if_pos hc, if_pos hc']
          cases hg : stdTab.get? i with
          | none => exact Or.inl ⟨rfl, rfl⟩
          | some sv' => exact ih (i + 1) sv' _ _ hcand
        · have hc' : ¬((goSlice val' p (p + v.length)).length = v.length ∧
              equalFold (goSlice val' p (p + v.length)) v = true) := by
            rintro ⟨hx, hy⟩
            exact hc ⟨by rw [hcandlen]; exact hx, by rw [hcandfold]; exact hy⟩
          rw [if_neg hc, if_neg hc']
          exact ih (i + 1) sv mv mv' hm

theorem contByte_false_of_gt {x : Nat} (h : 191 < x) : contByte x = false := by
  simp [contByte]
  omega

end Lunes
